import Mathlib

/-!
Shallow embedding of `src/maze_generator.py` (class `MazeGenerator`).

Conventions used throughout:
* Cells are integer coordinate pairs `(row, column)`, as in the Python source.
  Coordinates are modelled as `Int` so that Python's negative intermediate
  coordinates (e.g. `r - 2` for small `r`) compare against the bounds exactly
  as in the source.
* A grid is a list of rows of characters, as built by the source
  (`[['#' for _ in range(width)] for _ in range(height)]`).  Reading a cell
  outside the allocated grid yields `'#'`; writing outside it is a no-op.
  All reads and writes performed by the source are in range, so this choice
  only totalises the embedding.
* Python's mutable global random stream (`random.choice`, `random.sample`)
  is modelled by an injected stream `rho : Nat → Nat` of index draws together
  with a running draw counter `t`: the k-th draw from a list `l` picks index
  `rho k % l.length`.  Quantifying over `rho` quantifies over every possible
  random stream.
* Python `while` loops are modelled by structural recursion on an explicit
  fuel argument; the fuel values used by the top-level definitions are proved
  (or chosen) large enough that the loop always exits through its own
  condition, mirroring the source's termination behaviour.
* Integer floor division `//` from Python agrees with `Int` division here on
  the non-negative even sums it is applied to (wall midpoints).
-/

abbrev Cell := Int × Int

abbrev Grid := List (List Char)

/-- Read `maze[r][c]`, with `'#'` for out-of-grid coordinates. -/
def getCell (g : Grid) (r c : Int) : Char :=
  if 0 ≤ r ∧ 0 ≤ c then (g.getD r.toNat []).getD c.toNat '#' else '#'

/-- Write `maze[r][c] = v`; out-of-grid writes are no-ops. -/
def setCell (g : Grid) (r c : Int) (v : Char) : Grid :=
  if 0 ≤ r ∧ 0 ≤ c then g.set r.toNat ((g.getD r.toNat []).set c.toNat v) else g

/-- Python `range(start, stop, step)` for a non-zero step. -/
def pyRange (start stop step : Int) : List Int :=
  if step > 0 then
    (List.range ((stop - start + step - 1) / step).toNat).map
      (fun (i : Nat) => start + step * (i : Int))
  else if step < 0 then
    (List.range ((start - stop + (-step) - 1) / (-step)).toNat).map
      (fun (i : Nat) => start + step * (i : Int))
  else []

/-- The passage cells `[(r, c) for r in range(1, height, 2) for c in range(1, width, 2)]`. -/
def allCells (h w : Int) : List Cell :=
  (pyRange 1 h 2).flatMap (fun r => (pyRange 1 w 2).map (fun c => ((r, c) : Cell)))

/-- `random.choice(l)`, drawing index `rho t % l.length` from the stream. -/
def choice (rho : Nat → Nat) (t : Nat) (l : List Cell) : Cell :=
  l.getD (rho t % l.length) (0, 0)

/-- Index of the first occurrence of `x` (Python `list.index`). -/
def firstIdx (x : Cell) : List Cell → Nat
  | [] => 0
  | y :: ys => if y = x then 0 else firstIdx x ys + 1

/-- One random-walk path update (source lines 47-51): erase the loop back to
the first occurrence of `next_cell`, or append it. -/
def walkUpdate (path : List Cell) (next_cell : Cell) : List Cell :=
  if next_cell ∈ path then path.take (firstIdx next_cell path + 1) else path ++ [next_cell]

/-- Coarse-graph neighbours of `current` (source lines 37-41): cells two steps
away in one axis, with `1 <= nr < height-1 and 1 <= nc < width-1`. -/
def coarseNeighbors (h w : Int) (cur : Cell) : List Cell :=
  ([(0, 2), (0, -2), (2, 0), (-2, 0)] : List (Int × Int)).filterMap (fun d =>
    let nr := cur.1 + d.1
    let nc := cur.2 + d.2
    if 1 ≤ nr ∧ nr < h - 1 ∧ 1 ≤ nc ∧ nc < w - 1 then some ((nr, nc) : Cell) else none)

/-- Unit-step neighbours used by the breadth-first traversals
(source lines 126-129 and 150-153): in-bounds and not a wall. -/
def bfsNeighbors (h w : Int) (g : Grid) (p : Cell) : List Cell :=
  ([(0, 1), (0, -1), (1, 0), (-1, 0)] : List (Int × Int)).filterMap (fun d =>
    let nr := p.1 + d.1
    let nc := p.2 + d.2
    if 0 ≤ nr ∧ nr < h ∧ 0 ≤ nc ∧ nc < w ∧ getCell g nr nc ≠ '#' then
      some ((nr, nc) : Cell) else none)

inductive Phase where
  | initial
  | walk_start
  | walking
  | adding_path
  | path_complete
  | complete
deriving DecidableEq, Repr

inductive Payload where
  | cell (c : Cell)
  | path (p : List Cell)
  | empty
deriving DecidableEq, Repr

/-- One yielded event `(grid_snapshot, phase_tag, payload)`. -/
abbrev Event := Grid × Phase × Payload

structure WalkOut where
  path : List Cell
  current : Cell
  t : Nat
  evs : List Event
deriving Repr

/-- The inner random-walk loop (source lines 32-54).  `fuel` plays the role of
`max_steps - steps`; the loop body runs while `current ∉ in_maze` and fuel
remains, exactly as `while current not in in_maze and steps < max_steps`. -/
def walkAux (rho : Nat → Nat) (h w : Int) (inMaze : List Cell) (maze : Grid) :
    Nat → List Cell → Cell → Nat → WalkOut
  | 0, path, current, t => ⟨path, current, t, []⟩
  | fuel + 1, path, current, t =>
    if current ∈ inMaze then ⟨path, current, t, []⟩
    else
      let nbrs := coarseNeighbors h w current
      if nbrs = [] then ⟨path, current, t, []⟩
      else
        let next_cell := choice rho t nbrs
        let path' := walkUpdate path next_cell
        let r := walkAux rho h w inMaze maze fuel path' next_cell (t + 1)
        ⟨r.path, r.current, r.t, (maze, Phase.walking, Payload.path path') :: r.evs⟩

structure ConnectOut where
  maze : Grid
  inMaze : List Cell
  evs : List Event
deriving Repr

/-- Python `set.add` (membership is all that is ever used of the set). -/
def insertCell (p : Cell) (s : List Cell) : List Cell :=
  if p ∈ s then s else p :: s

/-- Connect the walk's path to the maze (source lines 56-70): clear every path
cell, clear the wall midway to the next path cell, add to the in-maze set,
and yield an `adding_path` event after each cell. -/
def connectPath (maze : Grid) (inMaze : List Cell) : List Cell → ConnectOut
  | [] => ⟨maze, inMaze, []⟩
  | [p] =>
    let m1 := setCell maze p.1 p.2 ' '
    ⟨m1, insertCell p inMaze, [(m1, Phase.adding_path, Payload.cell p)]⟩
  | p :: q :: rest =>
    let m1 := setCell maze p.1 p.2 ' '
    let m2 := setCell m1 ((p.1 + q.1) / 2) ((p.2 + q.2) / 2) ' '
    let r := connectPath m2 (insertCell p inMaze) (q :: rest)
    ⟨r.maze, r.inMaze, (m2, Phase.adding_path, Payload.cell p) :: r.evs⟩

structure GenOut where
  maze : Grid
  inMaze : List Cell
  t : Nat
  evs : List Event
  done : Bool
deriving Repr

/-- The outer `while remaining_cells:` loop (source lines 27-73).  `done`
records that the loop exited because no cell remained (it always does; the
fuel passed by `wilson` is proved sufficient). -/
def outer (rho : Nat → Nat) (h w : Int) :
    Nat → Grid → List Cell → Nat → GenOut
  | 0, maze, inMaze, t =>
    ⟨maze, inMaze, t, [], (allCells h w).filter (fun c => c ∉ inMaze) = []⟩
  | fuel + 1, maze, inMaze, t =>
    let remaining := (allCells h w).filter (fun c => c ∉ inMaze)
    if remaining = [] then ⟨maze, inMaze, t, [], true⟩
    else
      let cur := choice rho t remaining
      let wres := walkAux rho h w inMaze maze 1000 [cur] cur (t + 1)
      let cres := connectPath maze inMaze wres.path
      let rest := outer rho h w fuel cres.maze cres.inMaze wres.t
      ⟨rest.maze, rest.inMaze, rest.t,
        (maze, Phase.walk_start, Payload.cell cur) :: wres.evs ++ cres.evs ++
          (cres.maze, Phase.path_complete, Payload.empty) :: rest.evs,
        rest.done⟩

/-- The fuelled breadth-first reachability loop (source lines 123-131). -/
def bfsAux (h w : Int) (g : Grid) : Nat → List Cell → List Cell → List Cell
  | 0, _, visited => visited
  | _ + 1, [], visited => visited
  | fuel + 1, p :: qs, visited =>
    let ns := (bfsNeighbors h w g p).filter (fun n => n ∉ visited)
    bfsAux h w g fuel (qs ++ ns) (visited ++ ns)

/-- `get_reachable_positions(maze, start)` (source lines 117-133). -/
def get_reachable_positions (h w : Int) (g : Grid) (start : Cell) : List Cell :=
  bfsAux h w g (h.toNat * w.toNat + 1) [start] [start]

/-- The fuelled loop of `find_furthest_cell` (source lines 143-155), keeping
the first dequeued cell whose distance strictly exceeds the running maximum. -/
def ffcAux (h w : Int) (g : Grid) : Nat → List (Cell × Nat) → List Cell → Cell → Nat → Cell
  | 0, _, _, fc, _ => fc
  | _ + 1, [], _, fc, _ => fc
  | fuel + 1, (p, d) :: qs, visited, fc, md =>
    let fc' := if d > md then p else fc
    let md' := if d > md then d else md
    let ns := (bfsNeighbors h w g p).filter (fun n => n ∉ visited)
    ffcAux h w g fuel (qs ++ ns.map (fun n => (n, d + 1))) (visited ++ ns) fc' md'

/-- `find_furthest_cell(maze, start)` (source lines 135-157). -/
def find_furthest_cell (h w : Int) (g : Grid) (start : Cell) : Cell :=
  ffcAux h w g (h.toNat * w.toNat + 1) [(start, 0)] [start] start 0

/-- `place_connected_goal(maze)` (source lines 94-115).  The source writes
`'B'` into the grid and returns a bool; the embedding returns the written
grid together with the chosen cell (`none` when the source returns `False`). -/
def place_connected_goal (h w : Int) (g : Grid) : Grid × Option Cell :=
  let reachable := get_reachable_positions h w g (1, 1)
  let cands1 := (pyRange (h - 2) 0 (-2)).flatMap
    (fun r => (pyRange (w - 2) 0 (-2)).map (fun c => ((r, c) : Cell)))
  match cands1.find? (fun p => decide (p ∈ reachable ∧ p ≠ (1, 1))) with
  | some p => (setCell g p.1 p.2 'B', some p)
  | none =>
    let cands2 := (pyRange (h - 2) 0 (-1)).flatMap
      (fun r => (pyRange (w - 2) 0 (-1)).map (fun c => ((r, c) : Cell)))
    match cands2.find? (fun p => decide (p ∈ reachable ∧ p ≠ (1, 1))) with
    | some p => (setCell g p.1 p.2 'B', some p)
    | none => (g, none)

/-- `random.sample(l, k)`: `k` distinct index draws without replacement. -/
def sampleR (rho : Nat → Nat) : Nat → List Cell → Nat → List Cell
  | _, _, 0 => []
  | t, l, k + 1 =>
    if l = [] then []
    else
      let i := rho t % l.length
      l.getD i (0, 0) :: sampleR rho (t + 1) (l.eraseIdx i) k

/-- `add_multiple_paths(maze)` (source lines 159-183). -/
def add_multiple_paths (h w : Int) (g : Grid) (rho : Nat → Nat) (t : Nat) : Grid :=
  let walls1 := (pyRange 2 (h - 1) 2).flatMap (fun r =>
    (pyRange 1 (w - 1) 2).filterMap (fun c =>
      if getCell g (r - 1) c = ' ' ∧ getCell g (r + 1) c = ' ' ∧ getCell g r c = '#' then
        some ((r, c) : Cell) else none))
  let walls2 := (pyRange 1 (h - 1) 2).flatMap (fun r =>
    (pyRange 2 (w - 1) 2).filterMap (fun c =>
      if getCell g r (c - 1) = ' ' ∧ getCell g r (c + 1) = ' ' ∧ getCell g r c = '#' then
        some ((r, c) : Cell) else none))
  let walls_to_remove := walls1 ++ walls2
  let num_to_remove := walls_to_remove.length / 8
  if num_to_remove > 0 then
    (sampleR rho t walls_to_remove num_to_remove).foldl
      (fun m p => setCell m p.1 p.2 ' ') g
  else g

structure MazeGen where
  width : Int
  height : Int
  multiple_solutions : Bool
deriving DecidableEq, Repr

/-- `MazeGenerator.__init__` (source lines 7-12): round an even dimension up
to the next odd value; no validation is performed. -/
def MazeGenerator.init (width height : Int) (multiple_solutions : Bool) : MazeGen :=
  { width := if width % 2 = 1 then width else width + 1
    height := if height % 2 = 1 then height else height + 1
    multiple_solutions := multiple_solutions }

/-- The goal-placement block of `wilson_algorithm_generator`
(source lines 78-85): connectivity-verified placement, then the
furthest-cell fallback. -/
def placeGoal (h w : Int) (g : Grid) : Grid × Option Cell :=
  match place_connected_goal h w g with
  | (m, some p) => (m, some p)
  | (m, none) =>
    let furthest_cell := find_furthest_cell h w m (1, 1)
    if furthest_cell ≠ (1, 1) then
      (setCell m furthest_cell.1 furthest_cell.2 'B', some furthest_cell)
    else (m, none)

/-- `wilson_algorithm_generator` (source lines 14-92), run to completion:
the full event list, the final grid, and the `done` flag of the outer loop. -/
def wilson (gen : MazeGen) (rho : Nat → Nat) : GenOut :=
  let h := gen.height
  let w := gen.width
  let maze0 : Grid := List.replicate h.toNat (List.replicate w.toNat '#')
  let maze1 := setCell maze0 1 1 ' '
  let o := outer rho h w (allCells h w).length maze1 [((1, 1) : Cell)] 0
  let m2 := setCell o.maze 1 1 'A'
  let m3 := (placeGoal h w m2).1
  let m4 := if gen.multiple_solutions then add_multiple_paths h w m3 rho o.t else m3
  { maze := m4
    inMaze := o.inMaze
    t := o.t
    evs := (maze1, Phase.initial, Payload.cell (1, 1)) :: o.evs ++
      [(m4, Phase.complete, Payload.empty)]
    done := o.done }

/-- Exactly `n` steps through `bfsNeighbors`-edges: there is a walk of length
`n` from `s` to the cell through non-wall cells. -/
inductive ReachIn (h w : Int) (g : Grid) (s : Cell) : Cell → Nat → Prop
  | refl : ReachIn h w g s s 0
  | step {x y : Cell} {n : Nat} :
      ReachIn h w g s x n → y ∈ bfsNeighbors h w g x → ReachIn h w g s y (n + 1)

/-- Reachability from `s` through non-wall cells. -/
def Reach (h w : Int) (g : Grid) (s x : Cell) : Prop :=
  ∃ n, ReachIn h w g s x n

/-- `d` is the shortest-path distance from `s` to `y` over non-wall cells. -/
def IsDist (h w : Int) (g : Grid) (s y : Cell) (d : Nat) : Prop :=
  ReachIn h w g s y d ∧ ∀ d', ReachIn h w g s y d' → d ≤ d'

/-- An adversarial random stream: the outer pick takes index 0, the first
walk step index 1, every later draw index 0.  On a 5×5 maze this makes the
first walk bounce between the three passage cells outside the maze for the
full 1000-step budget without ever reaching the in-maze set. -/
def rhoAdv : Nat → Nat := fun t => if t = 1 then 1 else 0

/-- The 5×5 grid right after initialisation: all walls, `(1,1)` cleared. -/
def m5init : Grid := setCell (List.replicate 5 (List.replicate 5 '#')) 1 1 ' '

/-- The complete 5×5 generation run under the adversarial stream. -/
def gen5 : GenOut := wilson (MazeGenerator.init 5 5 false) rhoAdv

/-- The final grid of that run (computed once, used by several statements):
the abandoned walk's cells `(1,3)`, `(3,3)`, `(3,1)` are cleared and joined
to each other but disconnected from the start, and no goal is placed. -/
def mFinal : Grid :=
  [['#','#','#','#','#'],
   ['#','A','#',' ','#'],
   ['#','#','#',' ','#'],
   ['#',' ',' ',' ','#'],
   ['#','#','#','#','#']]

/-- Number of open cells at non-(odd,odd) coordinates: the cleared wall
cells of the spec's counting argument. -/
def clearedWallCount (g : Grid) : Nat :=
  (g.enum.map (fun rrow =>
    (rrow.2.enum.filter (fun cch =>
      cch.2 = ' ' ∧ ¬(rrow.1 % 2 = 1 ∧ cch.1 % 2 = 1))).length)).sum

/-- Number of `Goal` cells on a grid. -/
def goalCount (g : Grid) : Nat := (g.map (fun row => row.count 'B')).sum

/-- The payloads of the `walking` events in an event list. -/
def walkingPaths (evs : List Event) : List (List Cell) :=
  evs.filterMap (fun e =>
    match e.2.2 with
    | Payload.path p => some p
    | _ => none)

/-- An event carries the `walking` tag with a path payload. -/
def isWalkingEv (e : Event) : Prop :=
  e.2.1 = Phase.walking ∧ ∃ p, e.2.2 = Payload.path p

/-- An event carries the `adding_path` tag with a cell payload. -/
def isAddingEv (e : Event) : Prop :=
  e.2.1 = Phase.adding_path ∧ ∃ c, e.2.2 = Payload.cell c

/-- One walk round of the generation event stream: one `walk_start` event
with a cell payload, then `walking` events (path payloads), then
`adding_path` events (cell payloads), then one `path_complete` event with
an empty payload. -/
def RoundShape (l : List Event) : Prop :=
  ∃ g0 c wl al g1,
    l = (g0, Phase.walk_start, Payload.cell c) ::
      (wl ++ al ++ [(g1, Phase.path_complete, Payload.empty)]) ∧
    (∀ e ∈ wl, isWalkingEv e) ∧ (∀ e ∈ al, isAddingEv e)

/-- A 3×5 corridor grid used as a concrete witness input. -/
def mcorr : Grid :=
  [['#','#','#','#','#'],
   ['#',' ',' ',' ','#'],
   ['#','#','#','#','#']]

/-- State of the instrumented `find_furthest_cell` loop: besides the queue,
visited set and running furthest cell/distance of the source, it records the
processed (dequeued) entries and every enqueued `(cell, distance)` entry in
order — the discovery order of the breadth-first traversal. -/
structure FfcState where
  done : List (Cell × Nat)
  queue : List (Cell × Nat)
  visited : List Cell
  enq : List (Cell × Nat)
  fc : Cell
  md : Nat

/-- Instrumented run of `find_furthest_cell`'s loop: the same control flow as
`ffcAux`, additionally recording dequeue and enqueue order. -/
def ffcFull (h w : Int) (g : Grid) : Nat → FfcState → FfcState
  | 0, st => st
  | fuel + 1, st =>
    match st.queue with
    | [] => st
    | (p, d) :: qs =>
      let fc' := if d > st.md then p else st.fc
      let md' := if d > st.md then d else st.md
      let ns := (bfsNeighbors h w g p).filter (fun n => n ∉ st.visited)
      ffcFull h w g fuel
        ⟨st.done ++ [(p, d)], qs ++ ns.map (fun n => (n, d + 1)),
          st.visited ++ ns, st.enq ++ ns.map (fun n => (n, d + 1)), fc', md'⟩

/-- The discovery order of `find_furthest_cell`'s traversal: every cell it
ever adds to `visited`, paired with its queue distance, in insertion order. -/
def ffcTrace (h w : Int) (g : Grid) (start : Cell) : List (Cell × Nat) :=
  (ffcFull h w g (h.toNat * w.toNat + 1)
    ⟨[], [(start, 0)], [start], [(start, 0)], start, 0⟩).enq

/-- All grid coordinates `(r, c)` with `0 ≤ r < h`, `0 ≤ c < w`. -/
def allRC (h w : Int) : List Cell :=
  (pyRange 0 h 1).flatMap (fun r => (pyRange 0 w 1).map (fun c => ((r, c) : Cell)))

/-- Modelled from the spec: the cell discovered last among those at maximal
distance — what the claim says `find_furthest_cell` returns (`≥` keeps
replacing the running maximum on ties, so the last maximal entry wins). -/
def lastMaxCell (l : List (Cell × Nat)) : Cell :=
  (l.foldl (fun acc e => if e.2 ≥ acc.2 then e else acc) ((0, 0), 0)).1

/-- A 2×2 grid with three open cells: `(0,1)` and `(1,0)` are both at
maximal distance 1 from `(0,0)`. -/
def m22 : Grid := [[' ', ' '], [' ', '#']]

/-- The invariant of the instrumented breadth-first loop. -/
def FfcInv (h w : Int) (g : Grid) (s : Cell) (st : FfcState) : Prop :=
  st.enq = st.done ++ st.queue ∧
  (∀ e ∈ st.enq, ReachIn h w g s e.1 e.2) ∧
  st.visited = st.enq.map Prod.fst ∧
  (st.enq.map Prod.fst).Nodup ∧
  st.enq.head? = some (s, 0) ∧
  List.Pairwise (fun a b => a.2 ≤ b.2) st.enq ∧
  (∀ a ∈ st.queue, ∀ b ∈ st.queue, a.2 ≤ b.2 + 1) ∧
  (∀ e ∈ st.done, ∀ y ∈ bfsNeighbors h w g e.1,
    ∃ lbl, (y, lbl) ∈ st.enq ∧ lbl ≤ e.2 + 1) ∧
  (st.fc, st.md) =
    st.done.foldl (fun acc e => if e.2 > acc.2 then e else acc) (s, 0)

/-! ### Evaluation of the adversarial 5×5 run -/

lemma walkAux_succ (rho : Nat → Nat) (h w : Int) (im : List Cell) (m : Grid)
    (n : Nat) (path : List Cell) (cur : Cell) (t : Nat) :
    walkAux rho h w im m (n+1) path cur t =
      if cur ∈ im then ⟨path, cur, t, []⟩
      else
        let nbrs := coarseNeighbors h w cur
        if nbrs = [] then ⟨path, cur, t, []⟩
        else
          let nc := choice rho t nbrs
          let path' := walkUpdate path nc
          let r := walkAux rho h w im m n path' nc (t + 1)
          ⟨r.path, r.current, r.t, (m, Phase.walking, Payload.path path') :: r.evs⟩ := rfl

lemma rhoAdv_ge2 (t : Nat) (ht : 2 ≤ t) : rhoAdv t = 0 := by
  simp [rhoAdv]; omega

lemma walk_periodic (m : Grid) (k t : Nat) (ht : 2 ≤ t) :
    (walkAux rhoAdv 5 5 [((1,1):Cell)] m (2*k) [((1,3):Cell),(3,3),(3,1)] (3,1) t).path
        = [((1,3):Cell),(3,3),(3,1)] ∧
    (walkAux rhoAdv 5 5 [((1,1):Cell)] m (2*k) [((1,3):Cell),(3,3),(3,1)] (3,1) t).current
        = (3,1) ∧
    (walkAux rhoAdv 5 5 [((1,1):Cell)] m (2*k) [((1,3):Cell),(3,3),(3,1)] (3,1) t).t
        = t + 2*k := by
  induction k generalizing t with
  | zero => simp [walkAux]
  | succ k ih =>
    have h2 : 2 * (k+1) = (2*k + 1) + 1 := by ring
    rw [h2, walkAux_succ]
    have hmem : ((3,1) : Cell) ∉ ([((1,1):Cell)]) := by decide
    have hnb : coarseNeighbors 5 5 ((3,1):Cell) = [((3,3):Cell), (1,1)] := by decide
    simp only [hmem, if_false, hnb]
    have hch : choice rhoAdv t [((3,3):Cell), (1,1)] = (3,3) := by
      simp [choice, rhoAdv_ge2 t ht]
    have hupd : walkUpdate [((1,3):Cell),(3,3),(3,1)] (3,3) = [((1,3):Cell),(3,3)] := by decide
    rw [walkAux_succ]
    have hmem2 : ((3,3) : Cell) ∉ ([((1,1):Cell)]) := by decide
    have hnb2 : coarseNeighbors 5 5 ((3,3):Cell) = [((3,1):Cell), (1,3)] := by decide
    have hch2 : choice rhoAdv (t+1) [((3,1):Cell), (1,3)] = (3,1) := by
      simp [choice, rhoAdv_ge2 (t+1) (by omega)]
    have hupd2 : walkUpdate [((1,3):Cell),(3,3)] (3,1) = [((1,3):Cell),(3,3),(3,1)] := by decide
    have hne1 : ([((3,3):Cell), (1,1)] : List Cell) ≠ [] := by decide
    have hne2 : ([((3,1):Cell), (1,3)] : List Cell) ≠ [] := by decide
    simp only [hch, hupd, hmem2, if_false, hnb2, hch2, hupd2, if_neg hne1, if_neg hne2]
    have := ih (t+1+1) (by omega)
    simp only [this.1, this.2.1, this.2.2]
    exact ⟨trivial, trivial, by omega⟩

lemma walk1_result (m : Grid) :
    (walkAux rhoAdv 5 5 [((1,1):Cell)] m 1000 [((1,3):Cell)] (1,3) 1).path
        = [((1,3):Cell),(3,3),(3,1)] ∧
    (walkAux rhoAdv 5 5 [((1,1):Cell)] m 1000 [((1,3):Cell)] (1,3) 1).current
        = (3,1) ∧
    (walkAux rhoAdv 5 5 [((1,1):Cell)] m 1000 [((1,3):Cell)] (1,3) 1).t = 1001 := by
  rw [show (1000:Nat) = 999 + 1 from rfl, walkAux_succ]
  have hmem : ((1,3) : Cell) ∉ ([((1,1):Cell)]) := by decide
  have hnb : coarseNeighbors 5 5 ((1,3):Cell) = [((1,1):Cell), (3,3)] := by decide
  have hne : ([((1,1):Cell), (3,3)] : List Cell) ≠ [] := by decide
  have hch : choice rhoAdv 1 [((1,1):Cell), (3,3)] = (3,3) := by decide
  have hupd : walkUpdate [((1,3):Cell)] (3,3) = [((1,3):Cell),(3,3)] := by decide
  simp only [hmem, if_false, hnb, if_neg hne, hch, hupd]
  rw [show (999:Nat) = 998 + 1 from rfl, walkAux_succ]
  have hmem2 : ((3,3) : Cell) ∉ ([((1,1):Cell)]) := by decide
  have hnb2 : coarseNeighbors 5 5 ((3,3):Cell) = [((3,1):Cell), (1,3)] := by decide
  have hne2 : ([((3,1):Cell), (1,3)] : List Cell) ≠ [] := by decide
  have hch2 : choice rhoAdv (1+1) [((3,1):Cell), (1,3)] = (3,1) := by decide
  have hupd2 : walkUpdate [((1,3):Cell),(3,3)] (3,1) = [((1,3):Cell),(3,3),(3,1)] := by decide
  simp only [hmem2, if_false, hnb2, if_neg hne2, hch2, hupd2]
  have := walk_periodic m 499 (1+1+1) (by omega)
  rw [show (998:Nat) = 2*499 from rfl]
  simp only [this.1, this.2.1, this.2.2]
  exact ⟨trivial, trivial, trivial⟩

lemma outer_succ (rho : Nat → Nat) (h w : Int) (n : Nat) (maze : Grid) (im : List Cell) (t : Nat) :
    outer rho h w (n+1) maze im t =
      (let remaining := (allCells h w).filter (fun c => c ∉ im)
      if remaining = [] then ⟨maze, im, t, [], true⟩
      else
        let cur := choice rho t remaining
        let wres := walkAux rho h w im maze 1000 [cur] cur (t + 1)
        let cres := connectPath maze im wres.path
        let rest := outer rho h w n cres.maze cres.inMaze wres.t
        ⟨rest.maze, rest.inMaze, rest.t,
          (maze, Phase.walk_start, Payload.cell cur) :: wres.evs ++ cres.evs ++
            (cres.maze, Phase.path_complete, Payload.empty) :: rest.evs,
          rest.done⟩) := rfl

lemma gen5_outer :
    (outer rhoAdv 5 5 4 m5init [((1,1):Cell)] 0).maze
      = (connectPath m5init [((1,1):Cell)] [((1,3):Cell),(3,3),(3,1)]).maze ∧
    (outer rhoAdv 5 5 4 m5init [((1,1):Cell)] 0).inMaze
      = (connectPath m5init [((1,1):Cell)] [((1,3):Cell),(3,3),(3,1)]).inMaze ∧
    (outer rhoAdv 5 5 4 m5init [((1,1):Cell)] 0).done = true := by
  rw [show (4:Nat) = 3+1 from rfl, outer_succ]
  have hrem : (allCells 5 5).filter (fun c => c ∉ ([((1,1):Cell)])) = [((1,3):Cell),(3,1),(3,3)] := by decide
  have hne : ([((1,3):Cell),(3,1),(3,3)] : List Cell) ≠ [] := by decide
  have hch : choice rhoAdv 0 [((1,3):Cell),(3,1),(3,3)] = (1,3) := by decide
  simp only [hrem, if_neg hne, hch]
  have hw := walk1_result m5init
  simp only [hw.1, hw.2.1, hw.2.2]
  have hconn : (connectPath m5init [((1,1):Cell)] [((1,3):Cell),(3,3),(3,1)]).inMaze
      = [((3,1):Cell),(3,3),(1,3),(1,1)] := by decide
  have hrem2 : (allCells 5 5).filter (fun c => c ∉ ([((3,1):Cell),(3,3),(1,3),(1,1)])) = [] := by decide
  rw [show (3:Nat) = 2+1 from rfl]
  rw [outer_succ]
  simp only [hconn, hrem2]
  simp

lemma gen5_eval : gen5.maze = mFinal ∧ gen5.inMaze = [((3,1):Cell),(3,3),(1,3),(1,1)]
    ∧ gen5.done = true := by
  have h1 : MazeGenerator.init 5 5 false = ⟨5, 5, false⟩ := by decide
  unfold gen5
  rw [h1]
  unfold wilson
  have hm : setCell (List.replicate (Int.toNat 5) (List.replicate (Int.toNat 5) '#')) 1 1 ' '
      = m5init := by decide
  have hlen : (allCells 5 5).length = 4 := by decide
  simp only [hm, hlen]
  have ho := gen5_outer
  have hconnm : (connectPath m5init [((1,1):Cell)] [((1,3):Cell),(3,3),(3,1)]).maze
      = [['#','#','#','#','#'],['#',' ','#',' ','#'],['#','#','#',' ','#'],
         ['#',' ',' ',' ','#'],['#','#','#','#','#']] := by decide
  simp only [ho.1, ho.2.1, ho.2.2, hconnm]
  refine ⟨?_, by decide, trivial⟩
  decide

/-- C1: the claim states that a random walk that stops without reaching the
in-maze set leaves the grid untouched.  The code instead connects the
accumulated path unconditionally (source lines 56-70): on a 5×5 maze with
the adversarial stream `rhoAdv` the first walk exhausts its 1000-step bound
with `current = (3,1) ∉ in_maze`, yet afterwards its path cell `(1,3)` has
been cleared (it was a wall right after initialisation) and added to the
in-maze set. -/
theorem c1_abandoned_walk_modifies_grid :
    (walkAux rhoAdv 5 5 [((1,1):Cell)] m5init 1000 [((1,3):Cell)] (1,3) 1).current
        ∉ ([((1,1):Cell)]) ∧
    ((1,3) : Cell) ∈ gen5.inMaze ∧
    getCell m5init 1 3 = '#' ∧
    getCell gen5.maze 1 3 = ' ' := by
  have hw := walk1_result m5init
  have hg := gen5_eval
  refine ⟨?_, ?_, by decide, ?_⟩
  · rw [hw.2.1]; decide
  · rw [hg.2.1]; decide
  · rw [hg.1]; decide

/-- C2: the claim states that for every valid size and every random stream
the cleared passages form a spanning tree (cleared wall count equals
passage count − 1 and every passage cell is reachable from the start).  The
adversarial stream `rhoAdv` on the valid 5×5 size refutes this: the run
completes (`done = true`) with only 2 cleared wall cells instead of 3, and
the passage cell `(1,3)` is not reachable from the start `(1,1)`. -/
theorem c2_spanning_tree_fails :
    gen5.done = true ∧
    clearedWallCount gen5.maze = 2 ∧
    (allCells 5 5).length - 1 = 3 ∧
    ((1,3) : Cell) ∈ allCells 5 5 ∧
    ((1,3) : Cell) ∉ get_reachable_positions 5 5 gen5.maze (1,1) := by
  have hg := gen5_eval
  refine ⟨hg.2.2, ?_, by decide, by decide, ?_⟩
  · rw [hg.1]; decide
  · rw [hg.1]; decide

/-- C5: the claim states that whenever the passage cell count exceeds 1, a
Goal cell is set and reachable from the start, for every random stream.
Under `rhoAdv` on the 5×5 maze the run completes with 4 passage cells but
only the start reachable, both goal-placement sweeps fail, the
furthest-cell fallback returns the start itself, and no `'B'` is ever
written to the grid. -/
theorem c5_goal_missing :
    gen5.done = true ∧
    1 < (allCells 5 5).length ∧
    goalCount gen5.maze = 0 := by
  have hg := gen5_eval
  refine ⟨hg.2.2, by decide, ?_⟩
  rw [hg.1]; decide

/-! ### C3: dimension handling at construction -/

/-- C3 counterexample: requesting width 1 and height 1 (odd, hence unchanged
by rounding and still below 3) does not fail — `__init__` performs no
validation and yields a generator with width 1 and height 1. -/
theorem c3_no_rejection_cex :
    MazeGenerator.init 1 1 false = ⟨1, 1, false⟩ ∧ (1 : Int) < 3 := by decide

/-- C3 amended: construction never rejects any requested size.  It always
produces a generator; an even dimension is raised to the next odd value and
an odd dimension (including values below 3, such as 1) is kept unchanged,
so no `InvalidDimensions` error path exists. -/
theorem c3_init_never_rejects (w h : Int) (ms : Bool) :
    (MazeGenerator.init w h ms).width % 2 = 1 ∧
    w ≤ (MazeGenerator.init w h ms).width ∧
    (MazeGenerator.init w h ms).width ≤ w + 1 ∧
    (MazeGenerator.init w h ms).height % 2 = 1 ∧
    h ≤ (MazeGenerator.init w h ms).height ∧
    (MazeGenerator.init w h ms).height ≤ h + 1 ∧
    (MazeGenerator.init w h ms).multiple_solutions = ms := by
  unfold MazeGenerator.init
  by_cases hw : w % 2 = 1 <;> by_cases hh : h % 2 = 1 <;>
    simp [hw, hh] <;> omega

/-! ### C6: loop erasure -/

lemma firstIdx_spec (x : Cell) (l : List Cell) (hx : x ∈ l) :
    firstIdx x l < l.length ∧ l[firstIdx x l]? = some x ∧
      ∀ j, j < firstIdx x l → l[j]? ≠ some x := by
  induction l with
  | nil => cases hx
  | cons y ys ih =>
    by_cases hy : y = x
    · subst hy
      refine ⟨by simp [firstIdx], by simp [firstIdx], ?_⟩
      intro j hj
      simp [firstIdx] at hj
    · have hx' : x ∈ ys := by
        rcases List.mem_cons.mp hx with h1 | h1
        · exact absurd h1.symm hy
        · exact h1
      obtain ⟨h1, h2, h3⟩ := ih hx'
      have hfi : firstIdx x (y :: ys) = firstIdx x ys + 1 := by simp [firstIdx, hy]
      refine ⟨by simp [hfi]; omega, by simp [hfi]; exact h2, ?_⟩
      intro j hj
      rw [hfi] at hj
      match j with
      | 0 =>
        simp only [List.getElem?_cons_zero]
        exact fun hc => hy (Option.some.inj hc)
      | j + 1 =>
        simp only [List.getElem?_cons_succ]
        exact h3 j (by omega)

lemma walkUpdate_nodup (path : List Cell) (x : Cell) (hnd : path.Nodup) :
    (walkUpdate path x).Nodup := by
  unfold walkUpdate
  by_cases hx : x ∈ path
  · simp only [hx, if_true]
    exact (List.take_sublist _ _).nodup hnd
  · simp only [hx, if_false]
    simp [List.nodup_append, hnd, hx]

lemma walkAux_paths_nodup (rho : Nat → Nat) (h w : Int) (im : List Cell) (m : Grid) :
    ∀ fuel path cur t, path.Nodup →
      ∀ p, p ∈ walkingPaths (walkAux rho h w im m fuel path cur t).evs → p.Nodup := by
  intro fuel
  induction fuel with
  | zero => intro path cur t _ p hp; simp [walkAux, walkingPaths] at hp
  | succ n ih =>
    intro path cur t hnd p hp
    rw [walkAux_succ] at hp
    by_cases hcur : cur ∈ im
    · simp only [hcur, if_true] at hp
      simp [walkingPaths] at hp
    · simp only [hcur, if_false] at hp
      by_cases hnb : coarseNeighbors h w cur = []
      · simp only [hnb, if_pos rfl] at hp
        simp [walkingPaths] at hp
      · simp only [if_neg hnb] at hp
        have hnd' : (walkUpdate path (choice rho t (coarseNeighbors h w cur))).Nodup :=
          walkUpdate_nodup _ _ hnd
        simp only [walkingPaths, List.filterMap_cons] at hp
        simp only [walkingPaths] at ih
        rcases List.mem_cons.mp hp with h1 | h1
        · rw [h1]; exact hnd'
        · exact ih _ _ _ hnd' p h1

/-- C6: during a walk, if the chosen neighbour already occurs in the path its
first occurrence is at index `firstIdx`, and the path is truncated to exactly
that prefix of length `firstIdx + 1`, ending at the neighbour, with no
residual loop cells; otherwise the neighbour is appended.  Either way the
update preserves being duplicate-free, and consequently every `walking`
event payload of a walk started from a duplicate-free path is a simple
path. -/
theorem c6_loop_erasure_simple_path (path : List Cell) (x : Cell) (hnd : path.Nodup) :
    (x ∈ path →
      path[firstIdx x path]? = some x ∧
      (∀ j, j < firstIdx x path → path[j]? ≠ some x) ∧
      walkUpdate path x = path.take (firstIdx x path + 1) ∧
      (walkUpdate path x).length = firstIdx x path + 1 ∧
      (walkUpdate path x).getLast? = some x) ∧
    (x ∉ path → walkUpdate path x = path ++ [x]) ∧
    (walkUpdate path x).Nodup ∧
    (∀ rho h w im m fuel cur t p,
      p ∈ walkingPaths (walkAux rho h w im m fuel path cur t).evs → p.Nodup) := by
  refine ⟨?_, ?_, walkUpdate_nodup path x hnd, ?_⟩
  · intro hx
    obtain ⟨h1, h2, h3⟩ := firstIdx_spec x path hx
    have heq : walkUpdate path x = path.take (firstIdx x path + 1) := by
      simp [walkUpdate, hx]
    refine ⟨h2, h3, heq, ?_, ?_⟩
    · rw [heq, List.length_take]
      omega
    · rw [heq, List.take_succ, h2]
      simp
  · intro hx
    simp [walkUpdate, hx]
  · intro rho h w im m fuel cur t p hp
    exact walkAux_paths_nodup rho h w im m fuel path cur t hnd p hp

/-- C6 witness: at the concrete duplicate-free path `[(1,3),(3,3),(3,1)]`
with revisited neighbour `(3,3)` (first occurrence index 1), the path is
truncated to `[(1,3),(3,3)]` and stays duplicate-free. -/
theorem c6_witness :
    walkUpdate [((1,3):Cell),(3,3),(3,1)] (3,3) = [((1,3):Cell),(3,3)] ∧
    (walkUpdate [((1,3):Cell),(3,3),(3,1)] (3,3)).Nodup := by
  have h := c6_loop_erasure_simple_path [((1,3):Cell),(3,3),(3,1)] (3,3) (by decide)
  refine ⟨?_, h.2.2.1⟩
  have h1 := (h.1 (by decide)).2.2.1
  rw [h1]; decide

/-! ### C8: the connectivity augmenter only clears walls -/

lemma getD_set_ne {α : Type} (l : List α) (n m : Nat) (a d : α) (hnm : n ≠ m) :
    (l.set n a).getD m d = l.getD m d := by
  induction l generalizing n m with
  | nil => simp
  | cons x xs ih =>
    match n, m with
    | 0, 0 => exact absurd rfl hnm
    | 0, m + 1 => simp [List.set]
    | n + 1, 0 => simp [List.set]
    | n + 1, m + 1 =>
      simp only [List.set, List.getD_cons_succ]
      exact ih n m (by omega)

lemma getD_set_self {α : Type} (l : List α) (n : Nat) (a d : α) :
    (l.set n a).getD n d = if n < l.length then a else l.getD n d := by
  induction l generalizing n with
  | nil => simp
  | cons x xs ih =>
    match n with
    | 0 => simp [List.set]
    | n + 1 =>
      simp only [List.set, List.getD_cons_succ, List.length_cons]
      rw [ih n]
      by_cases h : n < xs.length
      · rw [if_pos h, if_pos (by omega)]
      · rw [if_neg h, if_neg (by omega)]

lemma getCell_setCell (g : Grid) (r c : Int) (v : Char) (r' c' : Int) :
    getCell (setCell g r c v) r' c' = getCell g r' c' ∨
      (r' = r ∧ c' = c ∧ getCell (setCell g r c v) r' c' = v) := by
  unfold setCell getCell
  by_cases h0 : 0 ≤ r ∧ 0 ≤ c
  · rw [if_pos h0]
    by_cases h1 : 0 ≤ r' ∧ 0 ≤ c'
    · rw [if_pos h1, if_pos h1]
      by_cases hr : r'.toNat = r.toNat
      · by_cases hc : c'.toNat = c.toNat
        · rw [hr, hc, getD_set_self]
          by_cases hlt : r.toNat < g.length
          · rw [if_pos hlt, getD_set_self]
            by_cases hlt2 : c.toNat < (g.getD r.toNat []).length
            · rw [if_pos hlt2]
              right
              refine ⟨by omega, by omega, rfl⟩
            · rw [if_neg hlt2]
              left; rfl
          · rw [if_neg hlt]
            left; rfl
        · left
          rw [hr, getD_set_self]
          by_cases hlt : r.toNat < g.length
          · rw [if_pos hlt]
            exact getD_set_ne _ _ _ _ _ (fun h => hc h.symm)
          · rw [if_neg hlt]
      · left
        rw [getD_set_ne _ _ _ _ _ (fun h => hr h.symm)]
    · rw [if_neg h1, if_neg h1]
      left; rfl
  · rw [if_neg h0]
    left; rfl

lemma bfsNeighbors_mono (h w : Int) (g g' : Grid)
    (hmono : ∀ r c, getCell g r c ≠ '#' → getCell g' r c ≠ '#') (x y : Cell)
    (hy : y ∈ bfsNeighbors h w g x) : y ∈ bfsNeighbors h w g' x := by
  unfold bfsNeighbors at hy ⊢
  rw [List.mem_filterMap] at hy ⊢
  obtain ⟨d, hd, hcond⟩ := hy
  refine ⟨d, hd, ?_⟩
  by_cases hc : 0 ≤ x.1 + d.1 ∧ x.1 + d.1 < h ∧ 0 ≤ x.2 + d.2 ∧ x.2 + d.2 < w ∧
      getCell g (x.1 + d.1) (x.2 + d.2) ≠ '#'
  · rw [if_pos hc] at hcond
    have hc' : 0 ≤ x.1 + d.1 ∧ x.1 + d.1 < h ∧ 0 ≤ x.2 + d.2 ∧ x.2 + d.2 < w ∧
        getCell g' (x.1 + d.1) (x.2 + d.2) ≠ '#' :=
      ⟨hc.1, hc.2.1, hc.2.2.1, hc.2.2.2.1, hmono _ _ hc.2.2.2.2⟩
    rw [if_pos hc']
    exact hcond
  · rw [if_neg hc] at hcond
    cases hcond

lemma reach_mono (h w : Int) (g g' : Grid)
    (hmono : ∀ r c, getCell g r c ≠ '#' → getCell g' r c ≠ '#') (s x : Cell)
    (hx : Reach h w g s x) : Reach h w g' s x := by
  obtain ⟨n, hn⟩ := hx
  refine ⟨n, ?_⟩
  induction hn with
  | refl => exact ReachIn.refl
  | step hr hmem ih => exact ReachIn.step ih (bfsNeighbors_mono h w g g' hmono _ _ hmem)

lemma sampleR_subset (rho : Nat → Nat) :
    ∀ k t (l : List Cell), ∀ x, x ∈ sampleR rho t l k → x ∈ l := by
  intro k
  induction k with
  | zero => intro t l x hx; simp [sampleR] at hx
  | succ n ih =>
    intro t l x hx
    unfold sampleR at hx
    by_cases hl : l = []
    · simp [hl] at hx
    · simp only [hl, if_false] at hx
      rcases List.mem_cons.mp hx with h1 | h1
      · have hlen : 0 < l.length := List.length_pos.mpr hl
        have hi : rho t % l.length < l.length := Nat.mod_lt _ hlen
        rw [h1]
        rw [List.getD_eq_getElem?_getD, List.getElem?_eq_getElem hi]
        exact List.getElem_mem _
      · exact (List.eraseIdx_sublist l (rho t % l.length)).mem (ih (t+1) _ x h1)

lemma foldl_clear_only (cells : List Cell) :
    ∀ (g g0 : Grid),
      (∀ p ∈ cells, getCell g0 p.1 p.2 = '#') →
      (∀ r c, getCell g r c = getCell g0 r c ∨
        (getCell g0 r c = '#' ∧ getCell g r c = ' ')) →
      ∀ r c, getCell (cells.foldl (fun m p => setCell m p.1 p.2 ' ') g) r c
          = getCell g0 r c ∨
        (getCell g0 r c = '#' ∧
          getCell (cells.foldl (fun m p => setCell m p.1 p.2 ' ') g) r c = ' ') := by
  induction cells with
  | nil => intro g g0 _ hinv r c; exact hinv r c
  | cons p ps ih =>
    intro g g0 hcells hinv r c
    simp only [List.foldl_cons]
    refine ih (setCell g p.1 p.2 ' ') g0 (fun q hq => hcells q (List.mem_cons_of_mem _ hq)) ?_ r c
    intro r' c'
    rcases getCell_setCell g p.1 p.2 ' ' r' c' with h1 | ⟨hr, hc, hv⟩
    · rw [h1]; exact hinv r' c'
    · right
      subst hr; subst hc
      exact ⟨hcells p (List.mem_cons_self _ _), hv⟩

lemma add_multiple_paths_only_clears (h w : Int) (g : Grid) (rho : Nat → Nat) (t : Nat) :
    ∀ r c, getCell (add_multiple_paths h w g rho t) r c = getCell g r c ∨
      (getCell g r c = '#' ∧ getCell (add_multiple_paths h w g rho t) r c = ' ') := by
  intro r c
  unfold add_multiple_paths
  set walls1 := (pyRange 2 (h - 1) 2).flatMap (fun r =>
    (pyRange 1 (w - 1) 2).filterMap (fun c =>
      if getCell g (r - 1) c = ' ' ∧ getCell g (r + 1) c = ' ' ∧ getCell g r c = '#' then
        some ((r, c) : Cell) else none)) with hw1
  set walls2 := (pyRange 1 (h - 1) 2).flatMap (fun r =>
    (pyRange 2 (w - 1) 2).filterMap (fun c =>
      if getCell g r (c - 1) = ' ' ∧ getCell g r (c + 1) = ' ' ∧ getCell g r c = '#' then
        some ((r, c) : Cell) else none)) with hw2
  by_cases hk : (walls1 ++ walls2).length / 8 > 0
  · rw [if_pos hk]
    have hwallmem : ∀ p ∈ walls1 ++ walls2, getCell g p.1 p.2 = '#' := by
      intro p hp
      rcases List.mem_append.mp hp with h1 | h1
      · rw [hw1] at h1
        rw [List.mem_flatMap] at h1
        obtain ⟨a, _, hmem⟩ := h1
        rw [List.mem_filterMap] at hmem
        obtain ⟨b, _, hcond⟩ := hmem
        by_cases hcnd : getCell g (a - 1) b = ' ' ∧ getCell g (a + 1) b = ' ' ∧ getCell g a b = '#'
        · rw [if_pos hcnd] at hcond
          rw [← Option.some.inj hcond]
          exact hcnd.2.2
        · rw [if_neg hcnd] at hcond
          cases hcond
      · rw [hw2] at h1
        rw [List.mem_flatMap] at h1
        obtain ⟨a, _, hmem⟩ := h1
        rw [List.mem_filterMap] at hmem
        obtain ⟨b, _, hcond⟩ := hmem
        by_cases hcnd : getCell g a (b - 1) = ' ' ∧ getCell g a (b + 1) = ' ' ∧ getCell g a b = '#'
        · rw [if_pos hcnd] at hcond
          rw [← Option.some.inj hcond]
          exact hcnd.2.2
        · rw [if_neg hcnd] at hcond
          cases hcond
    refine foldl_clear_only _ g g ?_ (fun r' c' => Or.inl rfl) r c
    intro p hp
    exact hwallmem p (sampleR_subset rho _ t _ p hp)
  · rw [if_neg hk]
    left; rfl

/-- C8: the connectivity augmenter only turns wall cells into open cells and
never walls off an open cell; consequently every cell reachable from the
start before augmentation is still reachable afterwards. -/
theorem c8_augmenter_monotone (h w : Int) (g : Grid) (rho : Nat → Nat) (t : Nat) (s : Cell) :
    (∀ r c : Int,
      getCell (add_multiple_paths h w g rho t) r c ≠ getCell g r c →
        getCell g r c = '#' ∧ getCell (add_multiple_paths h w g rho t) r c = ' ') ∧
    (∀ x, Reach h w g s x → Reach h w (add_multiple_paths h w g rho t) s x) := by
  have honly := add_multiple_paths_only_clears h w g rho t
  constructor
  · intro r c hne
    rcases honly r c with h1 | h1
    · exact absurd h1 hne
    · exact ⟨h1.1, h1.2⟩
  · intro x hx
    refine reach_mono h w g _ ?_ s x hx
    intro r c hnw
    rcases honly r c with h1 | h1
    · rw [h1]; exact hnw
    · rw [h1.2]; decide

/-- C8 witness: on the 3×5 corridor, the cell `(1,3)` is reachable from the
start before augmentation, hence also after augmentation with any stream. -/
theorem c8_witness :
    Reach 3 5 (add_multiple_paths 3 5 mcorr (fun _ => 0) 0) (1,1) (1,3) := by
  refine (c8_augmenter_monotone 3 5 mcorr (fun _ => 0) 0 (1,1)).2 (1,3) ⟨2, ?_⟩
  have h1 : ((1,2) : Cell) ∈ bfsNeighbors 3 5 mcorr (1,1) := by decide
  have h2 : ((1,3) : Cell) ∈ bfsNeighbors 3 5 mcorr (1,2) := by decide
  exact ReachIn.step (ReachIn.step ReachIn.refl h1) h2

/-! ### C4: goal placement only chooses reachable cells -/

lemma bfsAux_sound (h w : Int) (g : Grid) (s : Cell) :
    ∀ fuel queue visited,
      (∀ q ∈ queue, Reach h w g s q ∧ (q = s ∨ getCell g q.1 q.2 ≠ '#')) →
      (∀ v ∈ visited, Reach h w g s v ∧ (v = s ∨ getCell g v.1 v.2 ≠ '#')) →
      ∀ x ∈ bfsAux h w g fuel queue visited,
        Reach h w g s x ∧ (x = s ∨ getCell g x.1 x.2 ≠ '#') := by
  intro fuel
  induction fuel with
  | zero => intro queue visited _ hv x hx; exact hv x hx
  | succ n ih =>
    intro queue visited hq hv x hx
    match queue with
    | [] => exact hv x hx
    | p :: qs =>
      have hns : ∀ y ∈ (bfsNeighbors h w g p).filter (fun n => n ∉ visited),
          Reach h w g s y ∧ (y = s ∨ getCell g y.1 y.2 ≠ '#') := by
        intro y hy
        have hy' : y ∈ bfsNeighbors h w g p := List.mem_of_mem_filter hy
        have hreach : Reach h w g s y := by
          obtain ⟨m, hm⟩ := (hq p (List.mem_cons_self _ _)).1
          exact ⟨m + 1, ReachIn.step hm hy'⟩
        refine ⟨hreach, Or.inr ?_⟩
        unfold bfsNeighbors at hy'
        rw [List.mem_filterMap] at hy'
        obtain ⟨d, _, hcond⟩ := hy'
        by_cases hcnd : 0 ≤ p.1 + d.1 ∧ p.1 + d.1 < h ∧ 0 ≤ p.2 + d.2 ∧ p.2 + d.2 < w ∧
            getCell g (p.1 + d.1) (p.2 + d.2) ≠ '#'
        · rw [if_pos hcnd] at hcond
          rw [← Option.some.inj hcond]
          exact hcnd.2.2.2.2
        · rw [if_neg hcnd] at hcond
          cases hcond
      refine ih (qs ++ (bfsNeighbors h w g p).filter (fun n => n ∉ visited))
        (visited ++ (bfsNeighbors h w g p).filter (fun n => n ∉ visited)) ?_ ?_ x hx
      · intro q hq'
        rcases List.mem_append.mp hq' with h1 | h1
        · exact hq q (List.mem_cons_of_mem _ h1)
        · exact hns q h1
      · intro v hv'
        rcases List.mem_append.mp hv' with h1 | h1
        · exact hv v h1
        · exact hns v h1

lemma get_reachable_positions_sound (h w : Int) (g : Grid) (s : Cell) :
    ∀ x ∈ get_reachable_positions h w g s,
      Reach h w g s x ∧ (x = s ∨ getCell g x.1 x.2 ≠ '#') := by
  intro x hx
  have hstart : ∀ q ∈ ([s] : List Cell), Reach h w g s q ∧ (q = s ∨ getCell g q.1 q.2 ≠ '#') := by
    intro q hq
    rcases List.mem_singleton.mp hq with rfl
    exact ⟨⟨0, ReachIn.refl⟩, Or.inl rfl⟩
  exact bfsAux_sound h w g s _ [s] [s] hstart hstart x hx

lemma ffcAux_sound (h w : Int) (g : Grid) (s : Cell) :
    ∀ fuel queue visited fc md,
      (∀ q ∈ queue, Reach h w g s q.1 ∧ (q.1 = s ∨ getCell g q.1.1 q.1.2 ≠ '#')) →
      (Reach h w g s fc ∧ (fc = s ∨ getCell g fc.1 fc.2 ≠ '#')) →
      Reach h w g s (ffcAux h w g fuel queue visited fc md) ∧
        (ffcAux h w g fuel queue visited fc md = s ∨
          getCell g (ffcAux h w g fuel queue visited fc md).1
            (ffcAux h w g fuel queue visited fc md).2 ≠ '#') := by
  intro fuel
  induction fuel with
  | zero => intro queue visited fc md _ hfc; exact hfc
  | succ n ih =>
    intro queue visited fc md hq hfc
    match queue with
    | [] => exact hfc
    | (p, d) :: qs =>
      have hp := hq (p, d) (List.mem_cons_self _ _)
      have hns : ∀ y ∈ ((bfsNeighbors h w g p).filter (fun n => n ∉ visited)).map
          (fun n => (n, d + 1)),
          Reach h w g s y.1 ∧ (y.1 = s ∨ getCell g y.1.1 y.1.2 ≠ '#') := by
        intro y hy
        rw [List.mem_map] at hy
        obtain ⟨z, hz, rfl⟩ := hy
        have hz' : z ∈ bfsNeighbors h w g p := List.mem_of_mem_filter hz
        have hreach : Reach h w g s z := by
          obtain ⟨m, hm⟩ := hp.1
          exact ⟨m + 1, ReachIn.step hm hz'⟩
        refine ⟨hreach, Or.inr ?_⟩
        unfold bfsNeighbors at hz'
        rw [List.mem_filterMap] at hz'
        obtain ⟨dd, _, hcond⟩ := hz'
        by_cases hcnd : 0 ≤ p.1 + dd.1 ∧ p.1 + dd.1 < h ∧ 0 ≤ p.2 + dd.2 ∧ p.2 + dd.2 < w ∧
            getCell g (p.1 + dd.1) (p.2 + dd.2) ≠ '#'
        · rw [if_pos hcnd] at hcond
          rw [← Option.some.inj hcond]
          exact hcnd.2.2.2.2
        · rw [if_neg hcnd] at hcond
          cases hcond
      show Reach h w g s (ffcAux h w g n _ _ (if d > md then p else fc) (if d > md then d else md)) ∧ _
      refine ih _ _ _ _ ?_ ?_
      · intro q hq'
        rcases List.mem_append.mp hq' with h1 | h1
        · exact hq q (List.mem_cons_of_mem _ h1)
        · exact hns q h1
      · by_cases hd : d > md
        · rw [if_pos hd]; exact hp
        · rw [if_neg hd]; exact hfc

lemma find_furthest_cell_sound (h w : Int) (g : Grid) (s : Cell) :
    Reach h w g s (find_furthest_cell h w g s) ∧
      (find_furthest_cell h w g s = s ∨
        getCell g (find_furthest_cell h w g s).1 (find_furthest_cell h w g s).2 ≠ '#') := by
  unfold find_furthest_cell
  refine ffcAux_sound h w g s _ [(s, 0)] [s] s 0 ?_ ⟨⟨0, ReachIn.refl⟩, Or.inl rfl⟩
  intro q hq
  rcases List.mem_singleton.mp hq with rfl
  exact ⟨⟨0, ReachIn.refl⟩, Or.inl rfl⟩

/-- Changing one non-wall cell to the (non-wall) goal marker preserves
reachability. -/
lemma reach_relabel (h w : Int) (g : Grid) (x : Cell) (v : Char) (hv : v ≠ '#')
    (s y : Cell) (hy : Reach h w g s y) :
    Reach h w (setCell g x.1 x.2 v) s y := by
  refine reach_mono h w g _ ?_ s y hy
  intro r c hnw
  rcases getCell_setCell g x.1 x.2 v r c with h1 | h1
  · rw [h1]; exact hnw
  · rw [h1.2.2]; exact hv

/-- Success analysis of `place_connected_goal`: it either marks a cell that
the breadth-first reachability scan found (and differs from the start), or
leaves the grid unchanged and reports failure. -/
lemma place_connected_goal_cases (h w : Int) (g : Grid) :
    (∃ q, place_connected_goal h w g = (setCell g q.1 q.2 'B', some q) ∧
      q ∈ get_reachable_positions h w g (1,1) ∧ q ≠ (1,1)) ∨
    place_connected_goal h w g = (g, none) := by
  unfold place_connected_goal
  dsimp only
  rcases hfind : ((pyRange (h - 2) 0 (-2)).flatMap
      (fun r => (pyRange (w - 2) 0 (-2)).map (fun c => ((r, c) : Cell)))).find?
      (fun p => decide (p ∈ get_reachable_positions h w g (1,1) ∧ p ≠ (1, 1))) with _ | q
  · rcases hfind2 : ((pyRange (h - 2) 0 (-1)).flatMap
        (fun r => (pyRange (w - 2) 0 (-1)).map (fun c => ((r, c) : Cell)))).find?
        (fun p => decide (p ∈ get_reachable_positions h w g (1,1) ∧ p ≠ (1, 1))) with _ | q2
    · right
      rfl
    · left
      refine ⟨q2, rfl, ?_⟩
      have hpred := List.find?_some hfind2
      exact of_decide_eq_true hpred
  · left
    refine ⟨q, rfl, ?_⟩
    have hpred := List.find?_some hfind
    exact of_decide_eq_true hpred

/-- C4: whenever goal placement succeeds — whether through the
preference-order scans of `place_connected_goal` or through the
furthest-cell fallback — the cell marked `'B'` is reachable from the start
`(1,1)` through non-wall cells on the resulting grid. -/
theorem c4_goal_reachable (h w : Int) (g g' : Grid) (x : Cell)
    (hp : placeGoal h w g = (g', some x)) : Reach h w g' (1,1) x := by
  rcases place_connected_goal_cases h w g with ⟨q, heq, hq1, hq2⟩ | heq
  · have hpg : placeGoal h w g = (setCell g q.1 q.2 'B', some q) := by
      unfold placeGoal
      rw [heq]
    rw [hpg] at hp
    have hg : setCell g q.1 q.2 'B' = g' := congrArg Prod.fst hp
    have hqx : q = x := Option.some.inj (congrArg Prod.snd hp)
    subst hqx
    rw [← hg]
    have hs := get_reachable_positions_sound h w g (1,1) q hq1
    exact reach_relabel h w g q 'B' (by decide) (1,1) q hs.1
  · have hpg : placeGoal h w g =
        (let furthest_cell := find_furthest_cell h w g (1, 1)
        if furthest_cell ≠ (1, 1) then
          (setCell g furthest_cell.1 furthest_cell.2 'B', some furthest_cell)
        else (g, none)) := by
      unfold placeGoal
      rw [heq]
    rw [hpg] at hp
    by_cases hfc : find_furthest_cell h w g (1, 1) ≠ (1, 1)
    · rw [if_pos hfc] at hp
      have hg : setCell g (find_furthest_cell h w g (1, 1)).1
          (find_furthest_cell h w g (1, 1)).2 'B' = g' := congrArg Prod.fst hp
      have hqx : find_furthest_cell h w g (1, 1) = x :=
        Option.some.inj (congrArg Prod.snd hp)
      rw [← hg, ← hqx]
      have hs := find_furthest_cell_sound h w g (1,1)
      exact reach_relabel h w g _ 'B' (by decide) (1,1) _ hs.1
    · rw [if_neg hfc] at hp
      simp at hp

/-- C4 witness: on the 3×5 corridor the preference scan places the goal at
`(1,3)`, and that cell is reachable from the start on the resulting grid. -/
theorem c4_witness :
    Reach 3 5 [['#','#','#','#','#'],['#',' ',' ','B','#'],['#','#','#','#','#']] (1,1) (1,3) := by
  have h : placeGoal 3 5 mcorr =
      ([['#','#','#','#','#'],['#',' ',' ','B','#'],['#','#','#','#','#']], some (1,3)) := by
    decide
  exact c4_goal_reachable 3 5 mcorr _ (1,3) h

/-! ### C10: the generation run always terminates -/

lemma filter_length_mono (l : List Cell) (p q : Cell → Bool)
    (himp : ∀ x ∈ l, q x = true → p x = true) :
    (l.filter q).length ≤ (l.filter p).length := by
  induction l with
  | nil => simp
  | cons a as ih =>
    have ih' := ih (fun x hx => himp x (List.mem_cons_of_mem _ hx))
    by_cases hqa : q a = true
    · have hpa := himp a (List.mem_cons_self _ _) hqa
      simp only [List.filter_cons, hqa, hpa, if_true, List.length_cons]
      omega
    · simp only [List.filter_cons, Bool.eq_false_iff.mpr hqa]
      by_cases hpa : p a = true
      · simp only [hpa, if_true, List.length_cons]
        simp only [Bool.false_eq_true, if_false]
        omega
      · simp only [Bool.eq_false_iff.mpr hpa, Bool.false_eq_true, if_false]
        exact ih'

lemma filter_length_strict (l : List Cell) (p q : Cell → Bool)
    (himp : ∀ x ∈ l, q x = true → p x = true)
    (x : Cell) (hx : x ∈ l) (hpx : p x = true) (hqx : q x = false) :
    (l.filter q).length < (l.filter p).length := by
  induction l with
  | nil => cases hx
  | cons a as ih =>
    have himp' : ∀ y ∈ as, q y = true → p y = true :=
      fun y hy => himp y (List.mem_cons_of_mem _ hy)
    by_cases hqa : q a = true
    · have hax : a ≠ x := fun h => by rw [h, hqx] at hqa; cases hqa
      have hxas : x ∈ as := by
        rcases List.mem_cons.mp hx with h1 | h1
        · exact absurd h1.symm hax
        · exact h1
      have hpa := himp a (List.mem_cons_self _ _) hqa
      simp only [List.filter_cons, hqa, hpa, if_true, List.length_cons]
      exact Nat.succ_lt_succ (ih himp' hxas)
    · simp only [List.filter_cons, Bool.eq_false_iff.mpr hqa, Bool.false_eq_true, if_false]
      by_cases hpa : p a = true
      · simp only [hpa, if_true, List.length_cons]
        exact Nat.lt_succ_of_le (filter_length_mono as p q himp')
      · have hax : a ≠ x := fun h => by rw [h, hpx] at hpa; exact hpa rfl
        have hxas : x ∈ as := by
          rcases List.mem_cons.mp hx with h1 | h1
          · exact absurd h1.symm hax
          · exact h1
        simp only [Bool.eq_false_iff.mpr hpa, Bool.false_eq_true, if_false]
        exact ih himp' hxas

lemma choice_mem (rho : Nat → Nat) (t : Nat) (l : List Cell) (hl : l ≠ []) :
    choice rho t l ∈ l := by
  unfold choice
  have hlen : 0 < l.length := List.length_pos.mpr hl
  have hi : rho t % l.length < l.length := Nat.mod_lt _ hlen
  rw [List.getD_eq_getElem?_getD, List.getElem?_eq_getElem hi]
  exact List.getElem_mem _

lemma walkUpdate_head (path : List Cell) (x : Cell) (hne : path ≠ []) :
    walkUpdate path x ≠ [] ∧ (walkUpdate path x).head? = path.head? := by
  match path with
  | [] => exact absurd rfl hne
  | a :: as =>
    unfold walkUpdate
    by_cases hx : x ∈ a :: as
    · simp only [hx, if_true]
      constructor
      · simp [List.take]
      · simp [List.take]
    · simp only [hx, if_false]
      constructor
      · simp
      · simp

lemma walkAux_head (rho : Nat → Nat) (h w : Int) (im : List Cell) (m : Grid) :
    ∀ fuel path cur t, path ≠ [] →
      (walkAux rho h w im m fuel path cur t).path ≠ [] ∧
      (walkAux rho h w im m fuel path cur t).path.head? = path.head? := by
  intro fuel
  induction fuel with
  | zero => intro path cur t hne; exact ⟨hne, rfl⟩
  | succ n ih =>
    intro path cur t hne
    rw [walkAux_succ]
    by_cases hcur : cur ∈ im
    · rw [if_pos hcur]; exact ⟨hne, rfl⟩
    · rw [if_neg hcur]
      by_cases hnb : coarseNeighbors h w cur = []
      · simp only [hnb, if_pos rfl]; exact ⟨hne, rfl⟩
      · simp only [if_neg hnb]
        have hupd := walkUpdate_head path (choice rho t (coarseNeighbors h w cur)) hne
        have ihres := ih (walkUpdate path (choice rho t (coarseNeighbors h w cur)))
          (choice rho t (coarseNeighbors h w cur)) (t + 1) hupd.1
        exact ⟨ihres.1, ihres.2.trans hupd.2⟩

lemma connectPath_inMaze :
    ∀ (path : List Cell) (m : Grid) (im : List Cell),
      (∀ y ∈ im, y ∈ (connectPath m im path).inMaze) ∧
      (∀ p ∈ path, p ∈ (connectPath m im path).inMaze) := by
  intro path
  induction path with
  | nil =>
    intro m im
    exact ⟨fun y hy => hy, fun p hp => absurd hp (List.not_mem_nil p)⟩
  | cons p rest ih =>
    intro m im
    match rest with
    | [] =>
      constructor
      · intro y hy
        show y ∈ insertCell p im
        unfold insertCell
        by_cases hp : p ∈ im
        · rw [if_pos hp]; exact hy
        · rw [if_neg hp]; exact List.mem_cons_of_mem _ hy
      · intro q hq
        rcases List.mem_cons.mp hq with h1 | h1
        · subst h1
          show q ∈ insertCell q im
          unfold insertCell
          by_cases hp : q ∈ im
          · rw [if_pos hp]; exact hp
          · rw [if_neg hp]; exact List.mem_cons_self _ _
        · cases h1
    | q :: rest' =>
      have hins : ∀ y, y ∈ insertCell p im → y ∈ (connectPath m im (p :: q :: rest')).inMaze := by
        intro y hy
        show y ∈ (connectPath _ (insertCell p im) (q :: rest')).inMaze
        exact (ih _ _).1 y hy
      constructor
      · intro y hy
        refine hins y ?_
        unfold insertCell
        by_cases hp : p ∈ im
        · rw [if_pos hp]; exact hy
        · rw [if_neg hp]; exact List.mem_cons_of_mem _ hy
      · intro z hz
        rcases List.mem_cons.mp hz with h1 | h1
        · subst h1
          refine hins z ?_
          unfold insertCell
          by_cases hp : z ∈ im
          · rw [if_pos hp]; exact hp
          · rw [if_neg hp]; exact List.mem_cons_self _ _
        · show z ∈ (connectPath _ (insertCell p im) (q :: rest')).inMaze
          exact (ih _ _).2 z h1

lemma outer_done (rho : Nat → Nat) (h w : Int) :
    ∀ fuel (maze : Grid) (im : List Cell) (t : Nat),
      ((allCells h w).filter (fun c => c ∉ im)).length ≤ fuel →
      (outer rho h w fuel maze im t).done = true := by
  intro fuel
  induction fuel with
  | zero =>
    intro maze im t hlen
    have : (allCells h w).filter (fun c => c ∉ im) = [] :=
      List.length_eq_zero.mp (Nat.le_zero.mp hlen)
    show decide ((allCells h w).filter (fun c => c ∉ im) = []) = true
    rw [this]
    decide
  | succ n ih =>
    intro maze im t hlen
    rw [outer_succ]
    by_cases hrem : (allCells h w).filter (fun c => c ∉ im) = []
    · rw [if_pos hrem]
    · rw [if_neg hrem]
      dsimp only
      set cur := choice rho t ((allCells h w).filter (fun c => c ∉ im)) with hcur
      set wres := walkAux rho h w im maze 1000 [cur] cur (t + 1) with hwres
      set im' := (connectPath maze im wres.path).inMaze with him
      refine ih _ _ _ ?_
      have hcurmem : cur ∈ (allCells h w).filter (fun c => c ∉ im) :=
        choice_mem rho t _ hrem
      have hh := walkAux_head rho h w im maze 1000 [cur] cur (t + 1) (by simp)
      have hcurpath : cur ∈ wres.path := by
        have hhd : wres.path.head? = some cur := by rw [hh.2]; rfl
        cases hcase : wres.path with
        | nil => rw [hcase] at hhd; cases hhd
        | cons a as =>
          rw [hcase] at hhd
          simp only [List.head?_cons, Option.some.injEq] at hhd
          rw [hhd]
          exact List.mem_cons_self _ _
      have hconn := connectPath_inMaze wres.path maze im
      have hcurIn : cur ∈ im' := hconn.2 cur hcurpath
      have hsub : ∀ y ∈ im, y ∈ im' := hconn.1
      have hstrict := filter_length_strict (allCells h w)
        (fun c => decide (c ∉ im)) (fun c => decide (c ∉ im'))
        (fun x _ hq => decide_eq_true
          (fun hmem => (of_decide_eq_true hq) (hsub x hmem)))
        cur (List.mem_filter.mp hcurmem).1
        (List.mem_filter.mp hcurmem).2
        (decide_eq_false (not_not_intro hcurIn))
      omega

/-- C10: for every requested size and every random stream the generation run
terminates with every passage cell absorbed: the outer loop, given one fuel
unit per passage cell, always exits because no cell remains (`done = true`),
since each iteration's walk keeps its starting cell at the head of the final
path, and connecting the path adds that cell to the in-maze set, so the
remaining-cell list strictly shrinks; the event stream is therefore finite.
This holds even for walks stopped at the step bound, because the accumulated
path is connected unconditionally. -/
theorem c10_generation_terminates (gen : MazeGen) (rho : Nat → Nat) :
    (wilson gen rho).done = true ∧
    (∀ h w im m fuel cur t, cur ∈ (walkAux rho h w im m fuel [cur] cur t).path) := by
  constructor
  · unfold wilson
    dsimp only
    refine outer_done rho _ _ _ _ _ _ ?_
    exact List.length_filter_le _ _
  · intro h w im m fuel cur t
    have hh := walkAux_head rho h w im m fuel [cur] cur t (by simp)
    have hhd : (walkAux rho h w im m fuel [cur] cur t).path.head? = some cur := by
      rw [hh.2]; rfl
    cases hcase : (walkAux rho h w im m fuel [cur] cur t).path with
    | nil => rw [hcase] at hhd; cases hhd
    | cons a as =>
      rw [hcase] at hhd
      simp only [List.head?_cons, Option.some.injEq] at hhd
      rw [hhd]
      exact List.mem_cons_self _ _

/-! ### C9: shape of the generation event stream -/

lemma walkAux_evs_walking (rho : Nat → Nat) (h w : Int) (im : List Cell) (m : Grid) :
    ∀ fuel path cur t, ∀ e ∈ (walkAux rho h w im m fuel path cur t).evs, isWalkingEv e := by
  intro fuel
  induction fuel with
  | zero => intro path cur t e he; cases he
  | succ n ih =>
    intro path cur t e he
    rw [walkAux_succ] at he
    by_cases hcur : cur ∈ im
    · rw [if_pos hcur] at he; cases he
    · rw [if_neg hcur] at he
      by_cases hnb : coarseNeighbors h w cur = []
      · simp only [hnb, if_pos rfl] at he; cases he
      · simp only [if_neg hnb] at he
        rcases List.mem_cons.mp he with h1 | h1
        · rw [h1]; exact ⟨rfl, _, rfl⟩
        · exact ih _ _ _ e h1

lemma connectPath_evs_adding :
    ∀ (path : List Cell) (m : Grid) (im : List Cell),
      ∀ e ∈ (connectPath m im path).evs, isAddingEv e := by
  intro path
  induction path with
  | nil => intro m im e he; cases he
  | cons p rest ih =>
    intro m im e he
    match rest with
    | [] =>
      rcases List.mem_singleton.mp he with rfl
      exact ⟨rfl, _, rfl⟩
    | q :: rest' =>
      rcases List.mem_cons.mp he with h1 | h1
      · rw [h1]; exact ⟨rfl, _, rfl⟩
      · exact ih _ _ e h1

lemma outer_rounds (rho : Nat → Nat) (h w : Int) :
    ∀ fuel (maze : Grid) (im : List Cell) (t : Nat),
      ∃ rounds : List (List Event),
        (outer rho h w fuel maze im t).evs = rounds.flatten ∧
        ∀ rd ∈ rounds, RoundShape rd := by
  intro fuel
  induction fuel with
  | zero =>
    intro maze im t
    exact ⟨[], rfl, fun rd hrd => absurd hrd (List.not_mem_nil rd)⟩
  | succ n ih =>
    intro maze im t
    rw [outer_succ]
    by_cases hrem : (allCells h w).filter (fun c => c ∉ im) = []
    · rw [if_pos hrem]
      exact ⟨[], rfl, fun rd hrd => absurd hrd (List.not_mem_nil rd)⟩
    · rw [if_neg hrem]
      dsimp only
      set cur := choice rho t ((allCells h w).filter (fun c => c ∉ im)) with hcur
      set wres := walkAux rho h w im maze 1000 [cur] cur (t + 1) with hwres
      set cres := connectPath maze im wres.path with hcres
      obtain ⟨rounds, hre, hrs⟩ := ih cres.maze cres.inMaze wres.t
      refine ⟨((maze, Phase.walk_start, Payload.cell cur) ::
        (wres.evs ++ cres.evs ++ [(cres.maze, Phase.path_complete, Payload.empty)])) ::
        rounds, ?_, ?_⟩
      · rw [List.flatten_cons, ← hre]
        simp [List.append_assoc]
      · intro rd hrd
        rcases List.mem_cons.mp hrd with h1 | h1
        · rw [h1]
          refine ⟨maze, cur, wres.evs, cres.evs, cres.maze, by simp [List.append_assoc], ?_, ?_⟩
          · exact fun e he => walkAux_evs_walking rho h w im maze 1000 [cur] cur (t+1) e he
          · exact fun e he => connectPath_evs_adding wres.path maze im e he
        · exact hrs rd h1

/-- C9: every generation event stream consists of one `initial` event (cell
payload `(1,1)`) first, then zero or more walk rounds — each one
`walk_start` event with a cell payload, zero or more `walking` events with
path payloads, zero or more `adding_path` events with cell payloads, and
one `path_complete` event with an empty payload — and exactly one final
`complete` event with an empty payload as the last element. -/
theorem c9_event_stream_shape (gen : MazeGen) (rho : Nat → Nat) :
    ∃ (g0 : Grid) (rounds : List (List Event)) (gf : Grid),
      (wilson gen rho).evs =
        (g0, Phase.initial, Payload.cell (1,1)) ::
          (rounds.flatten ++ [(gf, Phase.complete, Payload.empty)]) ∧
      ∀ rd ∈ rounds, RoundShape rd := by
  unfold wilson
  dsimp only
  obtain ⟨rounds, hre, hrs⟩ := outer_rounds rho gen.height gen.width
    (allCells gen.height gen.width).length
    (setCell (List.replicate gen.height.toNat (List.replicate gen.width.toNat '#')) 1 1 ' ')
    [((1,1) : Cell)] 0
  rw [hre]
  exact ⟨_, rounds, _, rfl, hrs⟩

/-! ### C7: `find_furthest_cell` returns a furthest cell, first-discovered -/

lemma ffcAux_succ_cons (h w : Int) (g : Grid) (n : Nat) (p : Cell) (d : Nat)
    (qs : List (Cell × Nat)) (v : List Cell) (fc : Cell) (md : Nat) :
    ffcAux h w g (n + 1) ((p, d) :: qs) v fc md =
      ffcAux h w g n
        (qs ++ ((bfsNeighbors h w g p).filter (fun x => x ∉ v)).map (fun x => (x, d + 1)))
        (v ++ (bfsNeighbors h w g p).filter (fun x => x ∉ v))
        (if d > md then p else fc) (if d > md then d else md) := rfl

lemma ffcFull_succ_cons (h w : Int) (g : Grid) (n : Nat) (p : Cell) (d : Nat)
    (qs : List (Cell × Nat)) (st : FfcState) (hq : st.queue = (p, d) :: qs) :
    ffcFull h w g (n + 1) st =
      ffcFull h w g n
        ⟨st.done ++ [(p, d)],
          qs ++ ((bfsNeighbors h w g p).filter (fun x => x ∉ st.visited)).map
            (fun x => (x, d + 1)),
          st.visited ++ (bfsNeighbors h w g p).filter (fun x => x ∉ st.visited),
          st.enq ++ ((bfsNeighbors h w g p).filter (fun x => x ∉ st.visited)).map
            (fun x => (x, d + 1)),
          if d > st.md then p else st.fc, if d > st.md then d else st.md⟩ := by
  show (match st.queue with
    | [] => st
    | (p, d) :: qs => _) = _
  rw [hq]

lemma ffcAux_eq_full (h w : Int) (g : Grid) :
    ∀ fuel (q : List (Cell × Nat)) (v : List Cell) (fc : Cell) (md : Nat)
      (done enq : List (Cell × Nat)),
      ffcAux h w g fuel q v fc md = (ffcFull h w g fuel ⟨done, q, v, enq, fc, md⟩).fc := by
  intro fuel
  induction fuel with
  | zero => intro q v fc md done enq; rfl
  | succ n ih =>
    intro q v fc md done enq
    match q with
    | [] => rfl
    | (p, d) :: qs =>
      rw [ffcAux_succ_cons, ffcFull_succ_cons h w g n p d qs _ rfl]
      exact ih _ _ _ _ _ _

lemma mem_pyRange01 (h : Int) (x : Int) : x ∈ pyRange 0 h 1 ↔ 0 ≤ x ∧ x < h := by
  unfold pyRange
  rw [if_pos (by omega : (1:Int) > 0)]
  simp only [List.mem_map, List.mem_range]
  constructor
  · rintro ⟨i, hi, rfl⟩
    omega
  · rintro ⟨h0, h1⟩
    exact ⟨x.toNat, by omega, by omega⟩

lemma mem_allRC (h w : Int) (p : Cell) :
    p ∈ allRC h w ↔ 0 ≤ p.1 ∧ p.1 < h ∧ 0 ≤ p.2 ∧ p.2 < w := by
  unfold allRC
  rw [List.mem_flatMap]
  constructor
  · rintro ⟨r, hr, hmem⟩
    rw [List.mem_map] at hmem
    obtain ⟨c, hc, hpc⟩ := hmem
    rw [mem_pyRange01] at hr
    rw [mem_pyRange01] at hc
    rw [← hpc]
    exact ⟨hr.1, hr.2, hc.1, hc.2⟩
  · rintro ⟨h1, h2, h3, h4⟩
    refine ⟨p.1, (mem_pyRange01 _ _).mpr ⟨h1, h2⟩, List.mem_map.mpr
      ⟨p.2, (mem_pyRange01 _ _).mpr ⟨h3, h4⟩, rfl⟩⟩

lemma length_pyRange01 (h : Int) : (pyRange 0 h 1).length = h.toNat := by
  unfold pyRange
  rw [if_pos (by omega : (1:Int) > 0)]
  simp only [List.length_map, List.length_range]
  omega

lemma length_flatMap_const {α β : Type} (l : List α) (f : α → List β) (k : Nat)
    (hf : ∀ x ∈ l, (f x).length = k) : (l.flatMap f).length = l.length * k := by
  induction l with
  | nil => simp
  | cons a as ih =>
    rw [List.flatMap_cons, List.length_append, hf a (List.mem_cons_self _ _),
      ih (fun x hx => hf x (List.mem_cons_of_mem _ hx)), List.length_cons]
    ring

lemma length_allRC (h w : Int) : (allRC h w).length = h.toNat * w.toNat := by
  unfold allRC
  rw [length_flatMap_const _ _ w.toNat
    (fun x _ => by rw [List.length_map, length_pyRange01]), length_pyRange01]

lemma bfsNeighbors_bounds (h w : Int) (g : Grid) (p y : Cell)
    (hy : y ∈ bfsNeighbors h w g p) :
    0 ≤ y.1 ∧ y.1 < h ∧ 0 ≤ y.2 ∧ y.2 < w ∧ getCell g y.1 y.2 ≠ '#' := by
  unfold bfsNeighbors at hy
  rw [List.mem_filterMap] at hy
  obtain ⟨d, _, hcond⟩ := hy
  by_cases hcnd : 0 ≤ p.1 + d.1 ∧ p.1 + d.1 < h ∧ 0 ≤ p.2 + d.2 ∧ p.2 + d.2 < w ∧
      getCell g (p.1 + d.1) (p.2 + d.2) ≠ '#'
  · rw [if_pos hcnd] at hcond
    rw [← Option.some.inj hcond]
    exact hcnd
  · rw [if_neg hcnd] at hcond
    cases hcond

lemma bfsNeighbors_nodup (h w : Int) (g : Grid) (p : Cell) :
    (bfsNeighbors h w g p).Nodup := by
  unfold bfsNeighbors
  refine List.Nodup.filterMap ?_ (by decide)
  intro a a' b hb hb'
  by_cases hc : 0 ≤ p.1 + a.1 ∧ p.1 + a.1 < h ∧ 0 ≤ p.2 + a.2 ∧ p.2 + a.2 < w ∧
      getCell g (p.1 + a.1) (p.2 + a.2) ≠ '#'
  · rw [Option.mem_def, if_pos hc] at hb
    by_cases hc' : 0 ≤ p.1 + a'.1 ∧ p.1 + a'.1 < h ∧ 0 ≤ p.2 + a'.2 ∧ p.2 + a'.2 < w ∧
        getCell g (p.1 + a'.1) (p.2 + a'.2) ≠ '#'
    · rw [Option.mem_def, if_pos hc'] at hb'
      have h3 := (Option.some.inj hb).trans (Option.some.inj hb').symm
      rw [Prod.mk.injEq] at h3
      have hfst := h3.1
      have hsnd := h3.2
      exact Prod.ext (by omega) (by omega)
    · rw [Option.mem_def, if_neg hc'] at hb'
      cases hb'
  · rw [Option.mem_def, if_neg hc] at hb
    cases hb

lemma filter_not_mem_append_count (L : List Cell) :
    ∀ (ns v : List Cell), ns.Nodup → (∀ x ∈ ns, x ∈ L ∧ x ∉ v) →
      (L.filter (fun x => x ∉ (v ++ ns))).length + ns.length ≤
        (L.filter (fun x => x ∉ v)).length := by
  intro ns
  induction ns with
  | nil =>
    intro v _ _
    simp only [List.append_nil, List.length_nil, Nat.add_zero]
    exact Nat.le_refl _
  | cons a ns' ih =>
    intro v hnd hmem
    have hfe : L.filter (fun x => x ∉ (v ++ a :: ns')) =
        L.filter (fun x => x ∉ ((v ++ [a]) ++ ns')) := by
      refine List.filter_congr ?_
      intro x _
      simp only [decide_eq_decide, List.mem_append, List.mem_cons, List.mem_singleton]
      tauto
    rw [hfe]
    have hih := ih (v ++ [a]) (List.Nodup.of_cons hnd) ?_
    · have hstep : (L.filter (fun x => x ∉ (v ++ [a]))).length + 1 ≤
          (L.filter (fun x => x ∉ v)).length := by
        have ha := hmem a (List.mem_cons_self _ _)
        refine filter_length_strict L _ _ ?_ a ha.1 (decide_eq_true ha.2)
          (decide_eq_false ?_)
        · intro x _ hq
          refine decide_eq_true ?_
          intro hxv
          exact (of_decide_eq_true hq) (List.mem_append.mpr (Or.inl hxv))
        · intro hna
          exact hna (List.mem_append.mpr (Or.inr (List.mem_singleton.mpr rfl)))
      simp only [List.length_cons]
      omega
    · intro x hx
      have hm := hmem x (List.mem_cons_of_mem _ hx)
      refine ⟨hm.1, ?_⟩
      intro hxva
      rcases List.mem_append.mp hxva with h1 | h1
      · exact hm.2 h1
      · rcases List.mem_singleton.mp h1 with rfl
        exact (List.nodup_cons.mp hnd).1 hx

lemma ffcFull_drains (h w : Int) (g : Grid) :
    ∀ fuel (st : FfcState),
      st.queue.length + ((allRC h w).filter (fun x => x ∉ st.visited)).length ≤ fuel →
      (ffcFull h w g fuel st).queue = [] := by
  intro fuel
  induction fuel with
  | zero =>
    intro st hm
    have : st.queue.length = 0 := by omega
    show st.queue = []
    exact List.length_eq_zero.mp this
  | succ n ih =>
    intro st hm
    rcases hq : st.queue with _ | ⟨⟨p, d⟩, qs⟩
    · show (match st.queue with
        | [] => st
        | (p, d) :: qs => _).queue = []
      rw [hq]
      exact hq
    · rw [ffcFull_succ_cons h w g n p d qs st hq]
      refine ih _ ?_
      set ns := (bfsNeighbors h w g p).filter (fun x => x ∉ st.visited) with hns
      have hnsnd : ns.Nodup := List.Nodup.filter _ (bfsNeighbors_nodup h w g p)
      have hnsmem : ∀ x ∈ ns, x ∈ allRC h w ∧ x ∉ st.visited := by
        intro x hx
        have hb := bfsNeighbors_bounds h w g p x (List.mem_filter.mp hx).1
        refine ⟨(mem_allRC h w x).mpr ⟨hb.1, hb.2.1, hb.2.2.1, hb.2.2.2.1⟩, ?_⟩
        exact of_decide_eq_true (List.mem_filter.mp hx).2
      have hcnt := filter_not_mem_append_count (allRC h w) ns st.visited hnsnd hnsmem
      simp only [List.length_append, List.length_map]
      rw [hq] at hm
      simp only [List.length_cons] at hm
      omega

lemma pairwise_const {α : Type} (l : List α) (R : α → α → Prop) (h : ∀ a b, R a b) :
    l.Pairwise R := by
  induction l with
  | nil => exact List.Pairwise.nil
  | cons a as ih => exact List.Pairwise.cons (fun b _ => h a b) ih

lemma ffcInv_step (h w : Int) (g : Grid) (s : Cell) (st : FfcState) (p : Cell) (d : Nat)
    (qs : List (Cell × Nat)) (hq : st.queue = (p, d) :: qs) (hinv : FfcInv h w g s st) :
    FfcInv h w g s
      ⟨st.done ++ [(p, d)],
        qs ++ ((bfsNeighbors h w g p).filter (fun x => x ∉ st.visited)).map
          (fun x => (x, d + 1)),
        st.visited ++ (bfsNeighbors h w g p).filter (fun x => x ∉ st.visited),
        st.enq ++ ((bfsNeighbors h w g p).filter (fun x => x ∉ st.visited)).map
          (fun x => (x, d + 1)),
        if d > st.md then p else st.fc, if d > st.md then d else st.md⟩ := by
  obtain ⟨hE, hReach, hVis, hNodup, hHead, hSort, hQB, hClosure, hFold⟩ := hinv
  set ns := (bfsNeighbors h w g p).filter (fun x => x ∉ st.visited) with hns
  set nsL := ns.map (fun x => (x, d + 1)) with hnsL
  have hpdmem : (p, d) ∈ st.enq := by
    rw [hE, hq]
    exact List.mem_append.mpr (Or.inr (List.mem_cons_self _ _))
  have hsplit : st.enq = st.done ++ (p, d) :: qs := by rw [hE, hq]
  have hcross := (List.pairwise_append.mp (hsplit ▸ hSort)).2.2
  have hdle : ∀ e ∈ st.done, e.2 ≤ d :=
    fun e he => hcross e he (p, d) (List.mem_cons_self _ _)
  have hqge : ∀ b ∈ qs, d ≤ b.2 := by
    have hp2 := (List.pairwise_append.mp (hsplit ▸ hSort)).2.1
    exact fun b hb => (List.pairwise_cons.mp hp2).1 b hb
  have hLabels : ∀ e ∈ st.enq, e.2 ≤ d + 1 := by
    intro e he
    rw [hsplit] at he
    rcases List.mem_append.mp he with h1 | h1
    · have := hdle e h1; omega
    · rcases List.mem_cons.mp h1 with h2 | h2
      · rw [h2]
        exact Nat.le_succ _
      · exact hQB e (hq ▸ List.mem_cons_of_mem _ h2) (p, d) (hq ▸ List.mem_cons_self _ _)
  have hnsmem : ∀ e ∈ nsL, e.2 = d + 1 ∧ e.1 ∈ ns := by
    intro e he
    rw [hnsL, List.mem_map] at he
    obtain ⟨x, hx, rfl⟩ := he
    exact ⟨rfl, hx⟩
  have hEne : st.enq ≠ [] := by
    intro habs
    rw [habs] at hHead
    cases hHead
  refine ⟨?_, ?_, ?_, ?_, ?_, ?_, ?_, ?_, ?_⟩
  · show st.enq ++ nsL = (st.done ++ [(p, d)]) ++ (qs ++ nsL)
    rw [hsplit]
    simp [List.append_assoc]
  · intro e he
    rcases List.mem_append.mp he with h1 | h1
    · exact hReach e h1
    · obtain ⟨he2, hx⟩ := hnsmem e h1
      have hnb : e.1 ∈ bfsNeighbors h w g p := (List.mem_filter.mp hx).1
      have hrp := hReach (p, d) hpdmem
      rw [he2]
      exact ReachIn.step hrp hnb
  · show st.visited ++ ns = (st.enq ++ nsL).map Prod.fst
    rw [List.map_append, ← hVis, hnsL, List.map_map]
    have : (Prod.fst ∘ fun x => (x, d + 1)) = @id Cell := rfl
    rw [this, List.map_id]
  · show ((st.enq ++ nsL).map Prod.fst).Nodup
    rw [List.map_append, hnsL, List.map_map]
    have hid : (Prod.fst ∘ fun x => (x, d + 1)) = @id Cell := rfl
    rw [hid, List.map_id]
    rw [List.nodup_append]
    refine ⟨hNodup, List.Nodup.filter _ (bfsNeighbors_nodup h w g p), ?_⟩
    intro x hx1 hx2
    have hnv : x ∉ st.visited := of_decide_eq_true (List.mem_filter.mp hx2).2
    rw [hVis] at hnv
    exact hnv hx1
  · show (st.enq ++ nsL).head? = some (s, 0)
    cases henq : st.enq with
    | nil => exact absurd henq hEne
    | cons a as =>
      rw [henq] at hHead
      simp only [List.cons_append, List.head?_cons]
      simpa using hHead
  · show List.Pairwise (fun a b => a.2 ≤ b.2) (st.enq ++ nsL)
    rw [List.pairwise_append]
    refine ⟨hSort, ?_, ?_⟩
    · rw [hnsL]
      rw [List.pairwise_map]
      exact pairwise_const _ _ (fun a b => Nat.le_refl _)
    · intro a ha b hb
      rw [(hnsmem b hb).1]
      exact hLabels a ha
  · intro a ha b hb
    rcases List.mem_append.mp ha with ha1 | ha1 <;> rcases List.mem_append.mp hb with hb1 | hb1
    · exact hQB a (hq ▸ List.mem_cons_of_mem _ ha1) b (hq ▸ List.mem_cons_of_mem _ hb1)
    · rw [(hnsmem b hb1).1]
      have : a.2 ≤ d + 1 := hQB a (hq ▸ List.mem_cons_of_mem _ ha1) (p, d)
        (hq ▸ List.mem_cons_self _ _)
      omega
    · rw [(hnsmem a ha1).1]
      have := hqge b hb1
      omega
    · rw [(hnsmem a ha1).1, (hnsmem b hb1).1]
      omega
  · intro e he y hy
    rcases List.mem_append.mp he with h1 | h1
    · obtain ⟨lbl, hlbl, hle⟩ := hClosure e h1 y hy
      exact ⟨lbl, List.mem_append.mpr (Or.inl hlbl), hle⟩
    · rcases List.mem_singleton.mp h1 with rfl
      by_cases hv : y ∈ st.visited
      · rw [hVis] at hv
        rw [List.mem_map] at hv
        obtain ⟨e', he', hfst⟩ := hv
        refine ⟨e'.2, ?_, ?_⟩
        · have : (y, e'.2) = e' := by
            rw [← hfst]
          rw [this]
          exact List.mem_append.mpr (Or.inl he')
        · exact hLabels e' he'
      · have hyns : y ∈ ns := by
          rw [hns]
          rw [List.mem_filter]
          exact ⟨hy, decide_eq_true hv⟩
        refine ⟨d + 1, ?_, Nat.le_refl _⟩
        refine List.mem_append.mpr (Or.inr ?_)
        rw [hnsL, List.mem_map]
        exact ⟨y, hyns, rfl⟩
  · show ((if d > st.md then p else st.fc), (if d > st.md then d else st.md)) =
      (st.done ++ [(p, d)]).foldl (fun acc e => if e.2 > acc.2 then e else acc) (s, 0)
    rw [List.foldl_append, ← hFold]
    simp only [List.foldl_cons, List.foldl_nil]
    by_cases hd : d > st.md
    · rw [if_pos hd, if_pos hd, if_pos hd]
    · rw [if_neg hd, if_neg hd, if_neg hd]

lemma ffcFull_inv (h w : Int) (g : Grid) (s : Cell) :
    ∀ fuel (st : FfcState), FfcInv h w g s st → FfcInv h w g s (ffcFull h w g fuel st) := by
  intro fuel
  induction fuel with
  | zero => intro st hinv; exact hinv
  | succ n ih =>
    intro st hinv
    rcases hq : st.queue with _ | ⟨⟨p, d⟩, qs⟩
    · have : ffcFull h w g (n+1) st = st := by
        show (match st.queue with
          | [] => st
          | (p, d) :: qs => _) = st
        rw [hq]
      rw [this]
      exact hinv
    · rw [ffcFull_succ_cons h w g n p d qs st hq]
      exact ih _ (ffcInv_step h w g s st p d qs hq hinv)

lemma ffc_final_complete (h w : Int) (g : Grid) (s : Cell) (st : FfcState)
    (hinv : FfcInv h w g s st) (hdrain : st.queue = []) :
    ∀ y n, ReachIn h w g s y n → ∃ lbl, (y, lbl) ∈ st.enq ∧ lbl ≤ n := by
  obtain ⟨hE, hReach, hVis, hNodup, hHead, hSort, hQB, hClosure, hFold⟩ := hinv
  have hdoneE : st.enq = st.done := by
    rw [hE, hdrain, List.append_nil]
  intro y n hr
  induction hr with
  | refl =>
    refine ⟨0, ?_, Nat.le_refl _⟩
    cases henq : st.enq with
    | nil => rw [henq] at hHead; cases hHead
    | cons a as =>
      rw [henq] at hHead
      simp only [List.head?_cons, Option.some.injEq] at hHead
      rw [← hHead]
      exact List.mem_cons_self _ _
  | step hx hnb ih =>
    obtain ⟨lblx, hmem, hle⟩ := ih
    rw [hdoneE] at hmem
    obtain ⟨lbl, hl, hle2⟩ := hClosure _ hmem _ hnb
    exact ⟨lbl, hl, by omega⟩

lemma keyed_unique (l : List (Cell × Nat)) (hnd : (l.map Prod.fst).Nodup)
    (a b : Cell × Nat) (ha : a ∈ l) (hb : b ∈ l) (hfst : a.1 = b.1) : a = b := by
  induction l with
  | nil => cases ha
  | cons e es ih =>
    rw [List.map_cons, List.nodup_cons] at hnd
    rcases List.mem_cons.mp ha with rfl | ha1 <;> rcases List.mem_cons.mp hb with h2 | hb1
    · rw [h2]
    · exfalso
      apply hnd.1
      have hm : b.1 ∈ es.map Prod.fst := List.mem_map.mpr ⟨b, hb1, rfl⟩
      rw [← hfst] at hm
      exact hm
    · exfalso
      subst h2
      apply hnd.1
      have hm : a.1 ∈ es.map Prod.fst := List.mem_map.mpr ⟨a, ha1, rfl⟩
      rw [hfst] at hm
      exact hm
    · exact ih hnd.2 ha1 hb1

lemma ffc_final_isdist (h w : Int) (g : Grid) (s : Cell) (st : FfcState)
    (hinv : FfcInv h w g s st) (hdrain : st.queue = []) :
    ∀ e ∈ st.enq, IsDist h w g s e.1 e.2 := by
  intro e he
  refine ⟨hinv.2.1 e he, ?_⟩
  intro d' hd'
  obtain ⟨lbl, hl, hle⟩ := ffc_final_complete h w g s st hinv hdrain e.1 d' hd'
  have heq : (e.1, lbl) = e := keyed_unique st.enq hinv.2.2.2.1 (e.1, lbl) e hl he rfl
  have : lbl = e.2 := congrArg Prod.snd heq
  omega

lemma foldl_upd_first_max :
    ∀ (l : List (Cell × Nat)) (acc : Cell × Nat),
      List.Pairwise (fun a b => a.2 ≤ b.2) l →
      (l.foldl (fun a e => if e.2 > a.2 then e else a) acc = acc ∧ ∀ e ∈ l, e.2 ≤ acc.2) ∨
      (∃ pre el post, l = pre ++ el :: post ∧
        l.foldl (fun a e => if e.2 > a.2 then e else a) acc = el ∧
        acc.2 < el.2 ∧ (∀ e ∈ pre, e.2 < el.2) ∧ (∀ e ∈ l, e.2 ≤ el.2)) := by
  intro l
  induction l with
  | nil =>
    intro acc _
    left
    exact ⟨rfl, fun e he => absurd he (List.not_mem_nil e)⟩
  | cons x rest ih =>
    intro acc hsort
    have hsort' := List.pairwise_cons.mp hsort
    rw [List.foldl_cons]
    by_cases hx : x.2 > acc.2
    · rw [if_pos hx]
      rcases ih x hsort'.2 with ⟨hfl, hall⟩ | ⟨pre, el, post, hs2, hfl, hlt, hpre, hall⟩
      · right
        refine ⟨[], x, rest, rfl, hfl, hx, fun e he => absurd he (List.not_mem_nil e), ?_⟩
        intro e he
        rcases List.mem_cons.mp he with rfl | h1
        · exact Nat.le_refl _
        · exact hall e h1
      · right
        refine ⟨x :: pre, el, post, by rw [hs2, List.cons_append], hfl, by omega, ?_, ?_⟩
        · intro e he
          rcases List.mem_cons.mp he with rfl | h1
          · omega
          · exact hpre e h1
        · intro e he
          rcases List.mem_cons.mp he with rfl | h1
          · omega
          · exact hall e h1
    · rw [if_neg hx]
      have hxle : x.2 ≤ acc.2 := by omega
      rcases ih acc hsort'.2 with ⟨hfl, hall⟩ | ⟨pre, el, post, hs2, hfl, hlt, hpre, hall⟩
      · left
        refine ⟨hfl, ?_⟩
        intro e he
        rcases List.mem_cons.mp he with rfl | h1
        · exact hxle
        · exact hall e h1
      · right
        refine ⟨x :: pre, el, post, by rw [hs2, List.cons_append], hfl, hlt, ?_, ?_⟩
        · intro e he
          rcases List.mem_cons.mp he with rfl | h1
          · omega
          · exact hpre e h1
        · intro e he
          rcases List.mem_cons.mp he with rfl | h1
          · omega
          · exact hall e h1

/-- C7 (amended): `find_furthest_cell` returns a cell whose shortest-path
distance from the start over non-wall cells is maximal among all reachable
cells, and among the cells attaining that maximal distance it returns the
one discovered first by the breadth-first traversal (every earlier-discovered
cell has a strictly smaller distance). -/
theorem c7_furthest_cell_max_first_discovered (h w : Int) (g : Grid) (s : Cell) :
    ∃ (d : Nat) (pre post : List (Cell × Nat)),
      IsDist h w g s (find_furthest_cell h w g s) d ∧
      (∀ y d', IsDist h w g s y d' → d' ≤ d) ∧
      ffcTrace h w g s = pre ++ (find_furthest_cell h w g s, d) :: post ∧
      (∀ e ∈ pre, e.2 < d) := by
  have hinv0 : FfcInv h w g s ⟨[], [(s, 0)], [s], [(s, 0)], s, 0⟩ := by
    refine ⟨rfl, ?_, rfl, by simp, rfl, ?_, ?_, ?_, rfl⟩
    · intro e he
      rcases List.mem_singleton.mp he with rfl
      exact ReachIn.refl
    · exact List.pairwise_singleton _ _
    · intro a ha b hb
      rcases List.mem_singleton.mp ha with rfl
      rcases List.mem_singleton.mp hb with rfl
      omega
    · intro e he
      cases he
  set fuel := h.toNat * w.toNat + 1 with hfuel
  set stF := ffcFull h w g fuel ⟨[], [(s, 0)], [s], [(s, 0)], s, 0⟩ with hstF
  have hinvF : FfcInv h w g s stF := ffcFull_inv h w g s fuel _ hinv0
  have hdrain : stF.queue = [] := by
    refine ffcFull_drains h w g fuel _ ?_
    have hle : ((allRC h w).filter
        (fun x => x ∉ ([s] : List Cell))).length ≤ (allRC h w).length :=
      List.length_filter_le _ _
    have hlen := length_allRC h w
    show ([(s, 0)] : List (Cell × Nat)).length + _ ≤ fuel
    simp only [List.length_singleton, hfuel]
    omega
  have hfc : find_furthest_cell h w g s = stF.fc :=
    ffcAux_eq_full h w g fuel [(s, 0)] [s] s 0 [] [(s, 0)]
  have htrace : ffcTrace h w g s = stF.enq := rfl
  have hcomplete := ffc_final_complete h w g s stF hinvF hdrain
  have hisdist := ffc_final_isdist h w g s stF hinvF hdrain
  obtain ⟨hE, hReach, hVis, hNodup, hHead, hSort, hQB, hClosure, hFold⟩ := hinvF
  have hdoneE : stF.done = stF.enq := by
    have := hE
    rw [hdrain, List.append_nil] at this
    exact this.symm
  rw [hdoneE] at hFold
  rcases foldl_upd_first_max stF.enq (s, 0) hSort with
    ⟨hfl, hall⟩ | ⟨pre, el, post, hs2, hfl, hlt, hpre, hall⟩
  · have hfm : (stF.fc, stF.md) = (s, 0) := by rw [hFold, hfl]
    have hfcs : stF.fc = s := congrArg Prod.fst hfm
    cases henq : stF.enq with
    | nil => rw [henq] at hHead; cases hHead
    | cons a tail =>
      have ha : a = (s, 0) := by
        rw [henq] at hHead
        simpa using hHead
      refine ⟨0, [], tail, ?_, ?_, ?_, ?_⟩
      · rw [hfc, hfcs]
        exact ⟨ReachIn.refl, fun d' _ => Nat.zero_le d'⟩
      · intro y d' hy
        obtain ⟨lbl, hl, hle⟩ := hcomplete y d' hy.1
        have h1 : lbl ≤ 0 := hall (y, lbl) hl
        have h2 : d' ≤ lbl := hy.2 lbl (hReach (y, lbl) hl)
        omega
      · rw [htrace, henq, hfc, hfcs, ha]
        simp
      · intro e he
        cases he
  · have hfm : (stF.fc, stF.md) = el := by rw [hFold, hfl]
    have hfcel : stF.fc = el.1 := congrArg Prod.fst hfm
    refine ⟨el.2, pre, post, ?_, ?_, ?_, hpre⟩
    · rw [hfc, hfcel]
      have helm : el ∈ stF.enq := by
        rw [hs2]
        exact List.mem_append.mpr (Or.inr (List.mem_cons_self _ _))
      exact hisdist el helm
    · intro y d' hy
      obtain ⟨lbl, hl, hle⟩ := hcomplete y d' hy.1
      have h1 : lbl ≤ el.2 := hall (y, lbl) hl
      have h2 : d' ≤ lbl := hy.2 lbl (hReach (y, lbl) hl)
      omega
    · rw [htrace, hs2, hfc, hfcel]

lemma reachIn_zero (h w : Int) (g : Grid) (s y : Cell)
    (hr : ReachIn h w g s y 0) : y = s := by
  cases hr
  rfl

lemma m22_closed (y : Cell) (n : Nat) (hr : ReachIn 2 2 m22 (0, 0) y n) :
    y = (0, 0) ∨ y = (0, 1) ∨ y = (1, 0) := by
  induction hr with
  | refl => left; rfl
  | step hx hnb ih =>
    rename_i x y' n'
    rcases ih with h1 | h1 | h1
    · subst h1
      have hn : bfsNeighbors 2 2 m22 (0, 0) = [((0, 1) : Cell), (1, 0)] := by decide
      rw [hn] at hnb
      rcases List.mem_cons.mp hnb with h2 | h2
      · right; left; exact h2
      · right; right; exact List.mem_singleton.mp h2
    · subst h1
      have hn : bfsNeighbors 2 2 m22 (0, 1) = [((0, 0) : Cell)] := by decide
      rw [hn] at hnb
      left; exact List.mem_singleton.mp hnb
    · subst h1
      have hn : bfsNeighbors 2 2 m22 (1, 0) = [((0, 0) : Cell)] := by decide
      rw [hn] at hnb
      left; exact List.mem_singleton.mp hnb

/-- C7 counterexample: on the 2×2 grid `m22`, both `(0,1)` and `(1,0)` lie
at the maximal shortest-path distance 1 from the start `(0,0)`, the cell
discovered last among them by the traversal is `(1,0)`, but
`find_furthest_cell` returns `(0,1)` — the update `distance > max_distance`
is strict, so the first dequeued maximal cell wins, not the last-discovered
one as the claim states. -/
theorem c7_last_discovered_cex :
    find_furthest_cell 2 2 m22 (0, 0) = (0, 1) ∧
    lastMaxCell (ffcTrace 2 2 m22 (0, 0)) = (1, 0) ∧
    IsDist 2 2 m22 (0, 0) (0, 1) 1 ∧
    IsDist 2 2 m22 (0, 0) (1, 0) 1 ∧
    (∀ y d', IsDist 2 2 m22 (0, 0) y d' → d' ≤ 1) ∧
    ((0, 1) : Cell) ≠ (1, 0) := by
  have hmin1 : ∀ y : Cell, y ≠ (0, 0) → ∀ d', ReachIn 2 2 m22 (0, 0) y d' → 1 ≤ d' := by
    intro y hy d' hd'
    match d' with
    | 0 => exact absurd (reachIn_zero 2 2 m22 (0, 0) y hd') hy
    | n + 1 => omega
  refine ⟨by decide, by decide, ?_, ?_, ?_, by decide⟩
  · exact ⟨ReachIn.step ReachIn.refl (by decide), hmin1 (0, 1) (by decide)⟩
  · exact ⟨ReachIn.step ReachIn.refl (by decide), hmin1 (1, 0) (by decide)⟩
  · intro y d' hy
    rcases m22_closed y d' hy.1 with rfl | rfl | rfl
    · have := hy.2 0 ReachIn.refl
      omega
    · have := hy.2 1 (ReachIn.step ReachIn.refl (by decide))
      omega
    · have := hy.2 1 (ReachIn.step ReachIn.refl (by decide))
      omega
